import Mathlib

/-!
Verification development for the pigs-farmers-chess engine core.

The C++ sources (src/cpp/game.h, game.cpp, ai.h, ai.cpp) are shallowly
embedded below: 64-bit bitboards become `Nat` values kept below `2 ^ 64`,
moves are the 16-bit packed integers of `struct Move`, and the mutating
member functions of `Game` and `AI` become pure functions on explicit
state records.  Machine-level operations (`&`, `|`, `^`, shifts, the
`uint64_t` complement, `int16_t` narrowing) are modelled with `Nat`/`Int`
bitwise operators and explicit masks.
-/

set_option maxRecDepth 100000

namespace PigsAndFarmers

/-! ## Bit utilities (Game::lsb, Game::popCount, and the bit-set loops) -/

/-- Fuel-based helper for `ctz`; any fuel at least `n` gives the count of
trailing zero bits of a nonzero `n`. -/
def ctzAux : Nat → Nat → Nat
  | 0, _ => 0
  | fuel + 1, n =>
    if n = 0 then 0
    else if n % 2 = 1 then 0
    else ctzAux fuel (n / 2) + 1

/-- Count of trailing zero bits; the value `__builtin_ctzll` returns for a
nonzero argument (`Game::lsb` in game.cpp). -/
def ctz (n : Nat) : Nat := ctzAux n n

theorem ctzAux_congr : ∀ {f g n : Nat}, n ≤ f → n ≤ g → ctzAux f n = ctzAux g n
  | 0, g, n, hf, _ => by
    have : n = 0 := by omega
    subst this
    cases g with
    | zero => rfl
    | succ g => simp [ctzAux]
  | f + 1, 0, n, hf, hg => by
    have : n = 0 := by omega
    subst this
    simp [ctzAux]
  | f + 1, g + 1, n, hf, hg => by
    show ctzAux (f + 1) n = ctzAux (g + 1) n
    by_cases h0 : n = 0
    · simp [ctzAux, h0]
    rcases Nat.mod_two_eq_zero_or_one n with he | ho
    · have hrec : ctzAux f (n / 2) = ctzAux g (n / 2) :=
        ctzAux_congr (by omega) (by omega)
      simp [ctzAux, h0, he, hrec]
    · simp [ctzAux, h0, ho]

/-- The defining equation of `ctz`, matching the loop structure of a
trailing-zero count. -/
theorem ctz_eq (n : Nat) :
    ctz n = if n = 0 then 0 else if n % 2 = 1 then 0 else ctz (n / 2) + 1 := by
  by_cases h0 : n = 0
  · simp [h0, ctz, ctzAux]
  rcases Nat.mod_two_eq_zero_or_one n with he | ho
  · have h1 : n ≥ 1 := by omega
    have : ctz n = ctzAux n n := rfl
    obtain ⟨m, rfl⟩ : ∃ m, n = m + 1 := ⟨n - 1, by omega⟩
    show ctzAux (m + 1) (m + 1) = _
    have hrec : ctzAux m ((m + 1) / 2) = ctzAux ((m + 1) / 2) ((m + 1) / 2) :=
      ctzAux_congr (by omega) (by omega)
    simp [ctzAux, h0, he, hrec, ctz]
  · obtain ⟨m, rfl⟩ : ∃ m, n = m + 1 := ⟨n - 1, by omega⟩
    show ctzAux (m + 1) (m + 1) = _
    simp [ctzAux, h0, ho]

/-- Model of `Game::lsb` (game.cpp:134): `-1` for the empty bit-set, else the
index of the least significant set bit. -/
def lsb (bb : Nat) : Int :=
  if bb = 0 then -1 else ctz bb

/-- Fuel-based helper for `popCount`. -/
def popCountAux : Nat → Nat → Nat
  | 0, _ => 0
  | fuel + 1, n => if n = 0 then 0 else n % 2 + popCountAux fuel (n / 2)

/-- Model of `Game::popCount` (`__builtin_popcountll`). -/
def popCount (n : Nat) : Nat := popCountAux n n

theorem popCountAux_congr :
    ∀ {f g n : Nat}, n ≤ f → n ≤ g → popCountAux f n = popCountAux g n
  | 0, g, n, hf, _ => by
    have : n = 0 := by omega
    subst this
    cases g with
    | zero => rfl
    | succ g => simp [popCountAux]
  | f + 1, 0, n, hf, hg => by
    have : n = 0 := by omega
    subst this
    simp [popCountAux]
  | f + 1, g + 1, n, hf, hg => by
    by_cases h0 : n = 0
    · simp [popCountAux, h0]
    have hrec : popCountAux f (n / 2) = popCountAux g (n / 2) :=
      popCountAux_congr (by omega) (by omega)
    simp [popCountAux, h0, hrec]

/-- The defining equation of `popCount`. -/
theorem popCount_eq (n : Nat) :
    popCount n = if n = 0 then 0 else n % 2 + popCount (n / 2) := by
  by_cases h0 : n = 0
  · simp [h0, popCount, popCountAux]
  obtain ⟨m, rfl⟩ : ∃ m, n = m + 1 := ⟨n - 1, by omega⟩
  show popCountAux (m + 1) (m + 1) = _
  have hrec : popCountAux m ((m + 1) / 2) = popCountAux ((m + 1) / 2) ((m + 1) / 2) :=
    popCountAux_congr (by omega) (by omega)
  simp [popCountAux, h0, hrec, popCount]

/-- Fuel-based helper for `bitsToList`. -/
def bitsToListAux : Nat → Nat → List Nat
  | 0, _ => []
  | fuel + 1, n => if n = 0 then [] else ctz n :: bitsToListAux fuel (n &&& (n - 1))

/-- The sequence of squares visited by the C++ idiom
`while (bb) { sq = lsb(bb); ...; bb &= bb - 1; }`, in visiting order. -/
def bitsToList (n : Nat) : List Nat := bitsToListAux n n

theorem bitsToListAux_congr :
    ∀ {f g n : Nat}, n ≤ f → n ≤ g → bitsToListAux f n = bitsToListAux g n
  | 0, g, n, hf, _ => by
    have : n = 0 := by omega
    subst this
    cases g with
    | zero => rfl
    | succ g => simp [bitsToListAux]
  | f + 1, 0, n, hf, hg => by
    have : n = 0 := by omega
    subst this
    simp [bitsToListAux]
  | f + 1, g + 1, n, hf, hg => by
    by_cases h0 : n = 0
    · simp [bitsToListAux, h0]
    have hle : n &&& (n - 1) ≤ n - 1 := Nat.and_le_right
    have hrec : bitsToListAux f (n &&& (n - 1)) = bitsToListAux g (n &&& (n - 1)) :=
      bitsToListAux_congr (by omega) (by omega)
    simp [bitsToListAux, h0, hrec]

/-- The defining equation of `bitsToList`. -/
theorem bitsToList_eq (n : Nat) :
    bitsToList n = if n = 0 then [] else ctz n :: bitsToList (n &&& (n - 1)) := by
  by_cases h0 : n = 0
  · simp [h0, bitsToList, bitsToListAux]
  obtain ⟨m, rfl⟩ : ∃ m, n = m + 1 := ⟨n - 1, by omega⟩
  show bitsToListAux (m + 1) (m + 1) = _
  have hle : (m + 1) &&& m ≤ m := Nat.and_le_right
  have hrec : bitsToListAux m ((m + 1) &&& m) =
      bitsToListAux ((m + 1) &&& m) ((m + 1) &&& m) :=
    bitsToListAux_congr (by omega) (by omega)
  simp [bitsToListAux, h0, hrec, bitsToList]

/-- `squareBB` from game.h:152: `1ULL << sq`. -/
def squareBB (sq : Nat) : Nat := 1 <<< sq

/-- Bitwise complement on `uint64_t` (the C++ `~` applied to a bitboard). -/
def NOT64 (x : Nat) : Nat := x ^^^ (2 ^ 64 - 1)

/-- `fileOf` from game.h:149: `sq & 7`. -/
def fileOf (sq : Nat) : Nat := sq &&& 7

/-- `rankOf` from game.h:150: `sq >> 3`. -/
def rankOf (sq : Nat) : Nat := sq >>> 3

/-- Rank masks from game.h. -/
def RANK_2 : Nat := 0xFF00

/-- Rank-8 mask from game.h (promotion rank). -/
def RANK_8 : Nat := 0xFF00000000000000

/-! ### Basic lemmas about the bit utilities -/

theorem squareBB_eq_pow (sq : Nat) : squareBB sq = 2 ^ sq := by
  simp [squareBB, Nat.shiftLeft_eq]

theorem testBit_squareBB (sq i : Nat) :
    (squareBB sq).testBit i = decide (sq = i) := by
  rw [squareBB_eq_pow]; exact Nat.testBit_two_pow

theorem squareBB_lt (sq : Nat) (h : sq < 64) : squareBB sq < 2 ^ 64 := by
  rw [squareBB_eq_pow]
  exact Nat.pow_lt_pow_right (by norm_num) h

theorem testBit_ge_64_false {x i : Nat} (hx : x < 2 ^ 64) (hi : 64 ≤ i) :
    x.testBit i = false := by
  refine Nat.testBit_lt_two_pow (Nat.lt_of_lt_of_le hx ?_)
  exact Nat.pow_le_pow_right (by norm_num) hi

theorem lt_64_of_testBit {x i : Nat} (hx : x < 2 ^ 64) (h : x.testBit i = true) :
    i < 64 := by
  by_contra hc
  rw [testBit_ge_64_false hx (by omega)] at h
  exact Bool.false_ne_true h

theorem testBit_NOT64 (x i : Nat) (hx : x < 2 ^ 64) :
    (NOT64 x).testBit i = (decide (i < 64) && !x.testBit i) := by
  unfold NOT64
  rw [Nat.testBit_xor, Nat.testBit_two_pow_sub_one]
  by_cases h : i < 64
  · simp [h]
  · have hge : x.testBit i = false := testBit_ge_64_false hx (by omega)
    simp [h, hge]

theorem NOT64_lt (x : Nat) (hx : x < 2 ^ 64) : NOT64 x < 2 ^ 64 :=
  Nat.xor_lt_two_pow hx (by norm_num)

theorem ctz_odd {n : Nat} (h : n % 2 = 1) : ctz n = 0 := by
  have h0 : n ≠ 0 := by omega
  rw [ctz_eq]
  simp [h0, h]

theorem ctz_even {n : Nat} (h0 : n ≠ 0) (h : n % 2 = 0) :
    ctz n = ctz (n / 2) + 1 := by
  rw [ctz_eq]
  simp [h0, h]

theorem testBit_ctz {n : Nat} (h : n ≠ 0) : n.testBit (ctz n) = true := by
  induction n using Nat.strong_induction_on with
  | _ n ih =>
    rcases Nat.mod_two_eq_zero_or_one n with he | ho
    · have h2 : n / 2 ≠ 0 := by omega
      rw [ctz_even h he, Nat.testBit_add_one]
      exact ih (n / 2) (Nat.div_lt_self (Nat.pos_of_ne_zero h) (by omega)) h2
    · rw [ctz_odd ho]
      simp [Nat.testBit_zero, ho]

theorem testBit_lt_ctz {n j : Nat} (hj : j < ctz n) : n.testBit j = false := by
  induction n using Nat.strong_induction_on generalizing j with
  | _ n ih =>
    by_cases h0 : n = 0
    · simp [h0]
    rcases Nat.mod_two_eq_zero_or_one n with he | ho
    · rw [ctz_even h0 he] at hj
      cases j with
      | zero => simp [Nat.testBit_zero]; omega
      | succ j =>
        rw [Nat.testBit_add_one]
        exact ih (n / 2) (Nat.div_lt_self (Nat.pos_of_ne_zero h0) (by omega))
          (by omega)
    · rw [ctz_odd ho] at hj
      omega

/-- Clearing the lowest set bit: `n & (n - 1)` equals `n` with bit `ctz n`
removed by xor. -/
theorem and_pred_eq_xor_ctz {n : Nat} (h : n ≠ 0) :
    n &&& (n - 1) = n ^^^ 2 ^ ctz n := by
  induction n using Nat.strong_induction_on with
  | _ n ih =>
    rcases Nat.mod_two_eq_zero_or_one n with he | ho
    · have h2 : n / 2 ≠ 0 := by omega
      have ihh := ih (n / 2) (Nat.div_lt_self (Nat.pos_of_ne_zero h) (by omega)) h2
      rw [ctz_even h he]
      apply Nat.eq_of_testBit_eq
      intro i
      cases i with
      | zero =>
        rw [Nat.testBit_and, Nat.testBit_xor, Nat.testBit_two_pow]
        simp [Nat.testBit_zero, he]
      | succ i =>
        have hd : (n - 1) / 2 = n / 2 - 1 := by omega
        have hp : (2 : Nat) ^ (ctz (n / 2) + 1) / 2 = 2 ^ ctz (n / 2) := by
          rw [Nat.pow_succ]
          omega
        rw [Nat.testBit_and, Nat.testBit_add_one, Nat.testBit_add_one,
          Nat.testBit_add_one, Nat.xor_div_two, hd, hp, ← Nat.testBit_and, ihh]
    · rw [ctz_odd ho, Nat.pow_zero]
      apply Nat.eq_of_testBit_eq
      intro i
      cases i with
      | zero =>
        have h1 : (n - 1) % 2 = 0 := by omega
        rw [Nat.testBit_and, Nat.testBit_xor]
        simp [Nat.testBit_zero, ho, h1]
      | succ i =>
        have hd : (n - 1) / 2 = n / 2 := by omega
        have h12 : (1 : Nat) / 2 = 0 := by norm_num
        rw [Nat.testBit_and, Nat.testBit_add_one, Nat.testBit_add_one,
          Nat.testBit_add_one, Nat.xor_div_two, hd, h12]
        simp

theorem mem_bitsToList {n i : Nat} : i ∈ bitsToList n ↔ n.testBit i = true := by
  induction n using Nat.strong_induction_on generalizing i with
  | _ n ih =>
    by_cases h0 : n = 0
    · simp [h0, bitsToList, bitsToListAux]
    have hlt : n &&& (n - 1) < n :=
      Nat.lt_of_le_of_lt Nat.and_le_right
        (Nat.sub_lt (Nat.pos_of_ne_zero h0) Nat.one_pos)
    have hx := and_pred_eq_xor_ctz h0
    rw [bitsToList_eq, if_neg h0, List.mem_cons, ih _ hlt, hx, Nat.testBit_xor,
      Nat.testBit_two_pow]
    by_cases hic : ctz n = i
    · subst hic
      simp [testBit_ctz h0]
    · have hic' : i ≠ ctz n := fun hh => hic hh.symm
      simp [hic, hic']

theorem nodup_bitsToList (n : Nat) : (bitsToList n).Nodup := by
  induction n using Nat.strong_induction_on with
  | _ n ih =>
    by_cases h0 : n = 0
    · simp [h0, bitsToList, bitsToListAux]
    have hlt : n &&& (n - 1) < n :=
      Nat.lt_of_le_of_lt Nat.and_le_right
        (Nat.sub_lt (Nat.pos_of_ne_zero h0) Nat.one_pos)
    rw [bitsToList_eq, if_neg h0, List.nodup_cons]
    refine ⟨?_, ih _ hlt⟩
    rw [mem_bitsToList, and_pred_eq_xor_ctz h0, Nat.testBit_xor,
      Nat.testBit_two_pow]
    simp [testBit_ctz h0]

theorem bitsToList_lt_64 {n i : Nat} (hn : n < 2 ^ 64) (h : i ∈ bitsToList n) :
    i < 64 :=
  lt_64_of_testBit hn (mem_bitsToList.mp h)

/-! ## Move representation (game.h:28-51) -/

/-- The 16-bit packed move of game.h: 6 bits origin, 6 bits destination,
4 bits flags.  `Move()` is the null move with `data = 0`. -/
structure Move where
  data : Nat
deriving DecidableEq

/-- The constructor `Move(from, to, flags)`: `(flags << 12) | (to << 6) | from`. -/
def Move.mk' (fromSq toSq flags : Nat) : Move :=
  ⟨(flags <<< 12) ||| (toSq <<< 6) ||| fromSq⟩

/-- The null move `Move()`. -/
def Move.null : Move := ⟨0⟩

def Move.fromSq (m : Move) : Nat := m.data &&& 0x3F

def Move.toSq (m : Move) : Nat := (m.data >>> 6) &&& 0x3F

def Move.flags (m : Move) : Nat := (m.data >>> 12) &&& 0xF

/-- `flags() & 4` used as a C truth value. -/
def Move.isCapture (m : Move) : Bool := m.flags &&& 4 != 0

def Move.isDoublePush (m : Move) : Bool := m.flags == 1

/-- `to() >= A8` where `A8 = 56`. -/
def Move.isPromotion (m : Move) : Bool := 56 ≤ m.toSq

def Move.isValid (m : Move) : Bool := m.data != 0

/-- Move flag constants from game.h:47-51. -/
def QUIET : Nat := 0

def DOUBLE_PUSH : Nat := 1

def CAPTURE : Nat := 4

theorem Move.mk'_data {fromSq toSq flags : Nat} (hf : fromSq < 64)
    (ht : toSq < 64) (hfl : flags < 16) :
    (Move.mk' fromSq toSq flags).data = flags * 4096 + (toSq * 64 + fromSq) := by
  have h1 : toSq <<< 6 ||| fromSq = toSq * 64 + fromSq := by
    have hff : fromSq < 2 ^ 6 := by norm_num; omega
    have hor := Nat.mul_add_lt_is_or hff toSq
    rw [Nat.shiftLeft_eq, Nat.mul_comm toSq (2 ^ 6), ← hor]
  have hb : toSq * 64 + fromSq < 2 ^ 12 := by norm_num; omega
  have h2 := Nat.mul_add_lt_is_or hb flags
  show (flags <<< 12) ||| (toSq <<< 6) ||| fromSq = _
  rw [Nat.lor_assoc, h1, Nat.shiftLeft_eq, Nat.mul_comm flags (2 ^ 12), ← h2]

theorem Move.fromSq_mk' {fromSq toSq flags : Nat} (hf : fromSq < 64)
    (ht : toSq < 64) (hfl : flags < 16) :
    (Move.mk' fromSq toSq flags).fromSq = fromSq := by
  show (Move.mk' fromSq toSq flags).data &&& 0x3F = fromSq
  have h63 : (0x3F : Nat) = 2 ^ 6 - 1 := by norm_num
  rw [Move.mk'_data hf ht hfl, h63, Nat.and_pow_two_sub_one_eq_mod]
  norm_num
  omega

theorem Move.toSq_mk' {fromSq toSq flags : Nat} (hf : fromSq < 64)
    (ht : toSq < 64) (hfl : flags < 16) :
    (Move.mk' fromSq toSq flags).toSq = toSq := by
  show ((Move.mk' fromSq toSq flags).data >>> 6) &&& 0x3F = toSq
  have h63 : (0x3F : Nat) = 2 ^ 6 - 1 := by norm_num
  rw [Move.mk'_data hf ht hfl, h63, Nat.shiftRight_eq_div_pow,
    Nat.and_pow_two_sub_one_eq_mod]
  norm_num
  omega

theorem Move.flags_mk' {fromSq toSq flags : Nat} (hf : fromSq < 64)
    (ht : toSq < 64) (hfl : flags < 16) :
    (Move.mk' fromSq toSq flags).flags = flags := by
  show ((Move.mk' fromSq toSq flags).data >>> 12) &&& 0xF = flags
  have h15 : (0xF : Nat) = 2 ^ 4 - 1 := by norm_num
  rw [Move.mk'_data hf ht hfl, h15, Nat.shiftRight_eq_div_pow,
    Nat.and_pow_two_sub_one_eq_mod]
  norm_num
  omega

theorem Move.fromSq_lt (m : Move) : m.fromSq < 64 := by
  have : m.data &&& 0x3F ≤ 0x3F := Nat.and_le_right
  show m.data &&& 0x3F < 64
  omega

theorem Move.toSq_lt (m : Move) : m.toSq < 64 := by
  have : (m.data >>> 6) &&& 0x3F ≤ 0x3F := Nat.and_le_right
  show (m.data >>> 6) &&& 0x3F < 64
  omega

/-! ## Zobrist keys (game.cpp:61-73)

`Game::initZobrist` draws 129 values from `std::mt19937_64` seeded with
`0x1234567890ABCDEF`: for each square `pawnKeys[sq]` then `queenKeys[sq]`,
and finally `sideKey`.  The engine below is the C++ standard's
`mersenne_twister_engine` with the `mt19937_64` parameters.  Only the
first 129 outputs are needed, and these depend only on the first 156
entries produced by the first twist; since the in-place twist writes
index `i` using entries `i`, `i+1` and `i+156` of the pre-twist state for
all `i < 156`, that prefix is computed here as a single linear pass over
the seeded state. -/

def mtMult : Nat := 6364136223846793005

def mtUpperMask : Nat := 0xFFFFFFFF80000000

def mtLowMask : Nat := 0x7FFFFFFF

def mtMatrixA : Nat := 0xB5026F5AA96619E9

/-- Seeding recurrence: `x[i] = (mult * (x[i-1] ^ (x[i-1] >> 62)) + i) mod 2^64`. -/
def mtSeedNext (prev i : Nat) : Nat :=
  (mtMult * (prev ^^^ (prev >>> 62)) + i) % 2 ^ 64

def mtStateAux (prev i : Nat) : Nat → List Nat
  | 0 => []
  | fuel + 1 =>
    let x := mtSeedNext prev i
    x :: mtStateAux x (i + 1) fuel

/-- The 312-word seeded state for seed `0x1234567890ABCDEF` (game.cpp:64). -/
def mtState : List Nat := 0x1234567890ABCDEF :: mtStateAux 0x1234567890ABCDEF 1 311

/-- One twist update: `x = (upper of a) | (lower of b); mt[i] = c ^ (x >> 1) ^ (x & 1 ? A : 0)`. -/
def mtTwistStep (a b c : Nat) : Nat :=
  let x := (a &&& mtUpperMask) ||| (b &&& mtLowMask)
  let xA := (x >>> 1) ^^^ (if x &&& 1 ≠ 0 then mtMatrixA else 0)
  c ^^^ xA

/-- The first 156 entries of the twisted state. -/
def mtTwistTop : List Nat :=
  List.zipWith (fun p c => mtTwistStep p.1 p.2 c)
    (mtState.zip (mtState.drop 1)) (mtState.drop 156)

/-- The mt19937_64 output tempering. -/
def mtTemper (y0 : Nat) : Nat :=
  let y1 := y0 ^^^ ((y0 >>> 29) &&& 0x5555555555555555)
  let y2 := y1 ^^^ ((y1 <<< 17) &&& 0x71D67FFFEDA60000)
  let y3 := y2 ^^^ ((y2 <<< 37) &&& 0xFFF7EEE000000000)
  y3 ^^^ (y3 >>> 43)

/-- The first 129 outputs of `rng()` in `Game::initZobrist`. -/
def mtOutputs : List Nat := (mtTwistTop.take 129).map mtTemper

/-- `pawnKeys[sq]` is output `2*sq` (game.cpp:66-69). -/
def pawnKeys (sq : Nat) : Nat := mtOutputs.getD (2 * sq) 0

/-- `queenKeys[sq]` is output `2*sq + 1`. -/
def queenKeys (sq : Nat) : Nat := mtOutputs.getD (2 * sq + 1) 0

/-- `sideKey` is output 128. -/
def sideKey : Nat := mtOutputs.getD 128 0

/-- Sanity anchor: the first output of `std::mt19937_64(0x1234567890ABCDEF)`. -/
theorem pawnKeys_zero_value : pawnKeys 0 = 16024682823879056275 := by rfl

/-- Sanity anchor: the second output. -/
theorem queenKeys_zero_value : queenKeys 0 = 3688092930473528813 := by rfl

/-- Sanity anchor: the 129th output. -/
theorem sideKey_value : sideKey = 10344111787783367845 := by rfl

/-! ## XOR folds over bit-sets (the hash loops of game.cpp) -/

/-- The accumulator loop `for sq in l: h ^= keys[sq]`. -/
def foldKeys (keys : Nat → Nat) (init : Nat) (l : List Nat) : Nat :=
  l.foldl (fun h sq => h ^^^ keys sq) init

theorem foldKeys_init (keys : Nat → Nat) (init : Nat) (l : List Nat) :
    foldKeys keys init l = init ^^^ foldKeys keys 0 l := by
  induction l generalizing init with
  | nil => simp [foldKeys]
  | cons a l ih =>
    show foldKeys keys (init ^^^ keys a) l = init ^^^ foldKeys keys (0 ^^^ keys a) l
    rw [ih (init ^^^ keys a), ih (0 ^^^ keys a), Nat.zero_xor, Nat.xor_assoc]

theorem foldKeys_perm (keys : Nat → Nat) (init : Nat) {l l' : List Nat}
    (h : l.Perm l') : foldKeys keys init l = foldKeys keys init l' := by
  refine List.Perm.foldl_eq' h ?_ init
  intro x _ y _ z
  rw [Nat.xor_assoc, Nat.xor_assoc, Nat.xor_comm (keys x) (keys y)]

/-- XOR of `keys[sq]` over all set bits of `bb`, in the order the C++ loops
visit them. -/
def zobristPiece (keys : Nat → Nat) (bb : Nat) : Nat :=
  foldKeys keys 0 (bitsToList bb)

theorem zobristPiece_zero (keys : Nat → Nat) : zobristPiece keys 0 = 0 := by
  simp [zobristPiece, bitsToList, bitsToListAux, foldKeys]

theorem zobristPiece_xor_pow_of_testBit (keys : Nat → Nat) {bb k : Nat}
    (h : bb.testBit k = true) :
    zobristPiece keys (bb ^^^ 2 ^ k) = zobristPiece keys bb ^^^ keys k := by
  have hmem : ∀ i, i ∈ bitsToList bb ↔ i ∈ k :: bitsToList (bb ^^^ 2 ^ k) := by
    intro i
    rw [List.mem_cons, mem_bitsToList, mem_bitsToList, Nat.testBit_xor,
      Nat.testBit_two_pow]
    by_cases hik : i = k
    · subst hik
      simp [h]
    · have : ¬(k = i) := fun hh => hik hh.symm
      simp [hik, this]
  have hnd : (k :: bitsToList (bb ^^^ 2 ^ k)).Nodup := by
    rw [List.nodup_cons]
    refine ⟨?_, nodup_bitsToList _⟩
    rw [mem_bitsToList, Nat.testBit_xor, Nat.testBit_two_pow]
    simp [h]
  have hperm : (bitsToList bb).Perm (k :: bitsToList (bb ^^^ 2 ^ k)) :=
    (List.perm_ext_iff_of_nodup (nodup_bitsToList _) hnd).mpr hmem
  have h1 : zobristPiece keys bb = keys k ^^^ zobristPiece keys (bb ^^^ 2 ^ k) := by
    show foldKeys keys 0 (bitsToList bb) = _
    rw [foldKeys_perm keys 0 hperm]
    show foldKeys keys (0 ^^^ keys k) (bitsToList (bb ^^^ 2 ^ k)) = _
    rw [foldKeys_init, Nat.zero_xor]
    rfl
  rw [h1, Nat.xor_comm (keys k), Nat.xor_cancel_right]

theorem zobristPiece_xor_pow (keys : Nat → Nat) (bb k : Nat) :
    zobristPiece keys (bb ^^^ 2 ^ k) = zobristPiece keys bb ^^^ keys k := by
  by_cases h : bb.testBit k = true
  · exact zobristPiece_xor_pow_of_testBit keys h
  · have hf : bb.testBit k = false := Bool.eq_false_iff.mpr h
    have h2 : (bb ^^^ 2 ^ k).testBit k = true := by
      rw [Nat.testBit_xor, Nat.testBit_two_pow]
      simp [hf]
    have := zobristPiece_xor_pow_of_testBit keys h2
    rw [Nat.xor_assoc, Nat.xor_self, Nat.xor_zero] at this
    rw [this, Nat.xor_assoc, Nat.xor_self, Nat.xor_zero]

theorem zobristPiece_pow (keys : Nat → Nat) (k : Nat) :
    zobristPiece keys (2 ^ k) = keys k := by
  have := zobristPiece_xor_pow keys 0 k
  rwa [Nat.zero_xor, zobristPiece_zero, Nat.zero_xor] at this

/-! ### Single-bit set updates -/

theorem and_NOT64_squareBB {bb f : Nat} (hbb : bb < 2 ^ 64) (hf : f < 64)
    (h : bb.testBit f = true) :
    bb &&& NOT64 (squareBB f) = bb ^^^ squareBB f := by
  apply Nat.eq_of_testBit_eq
  intro i
  rw [Nat.testBit_and, testBit_NOT64 _ _ (squareBB_lt f hf), testBit_squareBB,
    Nat.testBit_xor, testBit_squareBB]
  by_cases hif : f = i
  · subst hif
    simp [h, hf]
  · by_cases hi : i < 64
    · simp [hif, hi]
    · have : bb.testBit i = false := testBit_ge_64_false hbb (by omega)
      simp [hif, hi, this]

theorem or_squareBB {bb t : Nat} (h : bb.testBit t = false) :
    bb ||| squareBB t = bb ^^^ squareBB t := by
  apply Nat.eq_of_testBit_eq
  intro i
  rw [Nat.testBit_or, testBit_squareBB, Nat.testBit_xor, testBit_squareBB]
  by_cases hit : t = i
  · subst hit
    simp [h]
  · simp [hit]

theorem and_eq_zero_iff {a b : Nat} :
    a &&& b = 0 ↔ ∀ i, (a.testBit i && b.testBit i) = false := by
  constructor
  · intro h i
    have := congrArg (Nat.testBit · i) h
    simpa [Nat.testBit_and] using this
  · intro h
    apply Nat.eq_of_testBit_eq
    intro i
    simp [Nat.testBit_and, h i]

/-! ### popCount lemmas -/

theorem popCount_eq_zero {n : Nat} : popCount n = 0 ↔ n = 0 := by
  induction n using Nat.strong_induction_on with
  | _ n ih =>
    by_cases h0 : n = 0
    · simp [h0, popCount, popCountAux]
    rw [popCount_eq, if_neg h0]
    constructor
    · intro h
      have h2 : popCount (n / 2) = 0 := by omega
      have := (ih (n / 2) (Nat.div_lt_self (Nat.pos_of_ne_zero h0) (by omega))).mp h2
      omega
    · intro h
      exact absurd h h0

theorem eq_two_pow_of_popCount_le_one {q t : Nat} (hc : popCount q ≤ 1)
    (h : q.testBit t = true) : q = 2 ^ t := by
  induction q using Nat.strong_induction_on generalizing t with
  | _ q ih =>
    have h0 : q ≠ 0 := by
      rintro rfl
      simp at h
    rw [popCount_eq, if_neg h0] at hc
    cases t with
    | zero =>
      rw [Nat.testBit_zero, decide_eq_true_eq] at h
      have h2 : popCount (q / 2) = 0 := by omega
      have := popCount_eq_zero.mp h2
      omega
    | succ t =>
      rw [Nat.testBit_add_one] at h
      have hq2 : q / 2 ≠ 0 := by
        rintro hz
        rw [hz] at h
        simp at h
      have hmod : q % 2 = 0 := by
        by_contra hm
        have h2 : popCount (q / 2) = 0 := by omega
        exact hq2 (popCount_eq_zero.mp h2)
      have := ih (q / 2) (Nat.div_lt_self (Nat.pos_of_ne_zero h0) (by omega))
        (by omega) h
      rw [Nat.pow_succ]
      omega

theorem popCount_two_pow (t : Nat) : popCount (2 ^ t) = 1 := by
  induction t with
  | zero => rfl
  | succ t ih =>
    have h0 : (2 : Nat) ^ (t + 1) ≠ 0 := by positivity
    rw [popCount_eq, if_neg h0]
    have h1 : 2 ^ (t + 1) % 2 = 0 := by
      rw [Nat.pow_succ]
      omega
    have h2 : 2 ^ (t + 1) / 2 = 2 ^ t := by
      rw [Nat.pow_succ]
      omega
    rw [h1, h2, ih]

/-! ## Game data model (game.h:53-141) -/

/-- `enum Side`: WHITE moves the pawns ("pigs"), BLACK the queen ("farmer"). -/
inductive Side where
  | WHITE
  | BLACK
deriving DecidableEq

/-- The ternary `(sideToMove == WHITE) ? BLACK : WHITE`. -/
def Side.flip : Side → Side
  | .WHITE => .BLACK
  | .BLACK => .WHITE

/-- `enum class GameResult` from game.h:54-60. -/
inductive GameResult where
  | ONGOING
  | WHITE_WINS_PROMOTION
  | WHITE_WINS_CAPTURE
  | BLACK_WINS
  | DRAW_STALEMATE
deriving DecidableEq

/-- `Game::UndoInfo` (game.h:106-110). -/
structure UndoInfo where
  move : Move
  capturedPiece : Nat
  hash : Nat
deriving DecidableEq

/-- The mutable state of `class Game`.  `moveHistory` holds the most recent
undo record at the head (the head plays the role of `std::vector::back`).
`ply` is a C++ `int`, hence `Int` (unpaired `unmakeMove` calls can drive it
negative). -/
structure Game where
  pawns : Nat
  queen : Nat
  sideToMove : Side
  hash : Nat
  ply : Int
  moveHistory : List UndoInfo
deriving DecidableEq

/-- The hash recomputation of `Game::setPosition` (game.cpp:107-123):
fold `pawnKeys` over the pawn bits, continue with `queenKeys` over the
queen bits, then xor `sideKey` for BLACK. -/
def zobrist (p q : Nat) (side : Side) : Nat :=
  foldKeys queenKeys (foldKeys pawnKeys 0 (bitsToList p)) (bitsToList q) ^^^
    (if side = Side.BLACK then sideKey else 0)

theorem zobrist_split (p q : Nat) (side : Side) :
    zobrist p q side = zobristPiece pawnKeys p ^^^ zobristPiece queenKeys q ^^^
      (if side = Side.BLACK then sideKey else 0) := by
  rw [zobrist, foldKeys_init]
  rfl

/-- `Game::setPosition` (game.cpp:100-124): sets the given position, clears
the history, recomputes the hash from scratch. -/
def setPosition (p q : Nat) (side : Side) : Game :=
  { pawns := p, queen := q, sideToMove := side, hash := zobrist p q side,
    ply := 0, moveHistory := [] }

/-- `Game::reset` (game.cpp:81-98): pawns on rank 2, queen on d8 (square 59),
WHITE to move, ply 0, hash rebuilt by the explicit loops.  The undo history
is NOT cleared (no assignment to `moveHistory` occurs in `reset`). -/
def reset (g : Game) : Game :=
  { pawns := RANK_2, queen := squareBB 59, sideToMove := Side.WHITE,
    hash := foldKeys pawnKeys 0 (List.range' 8 8) ^^^ queenKeys 59,
    ply := 0, moveHistory := g.moveHistory }

/-- `Game::Game()` (game.cpp:75-79): a fresh object whose vector is empty,
then `reset()`. -/
def initialGame : Game :=
  reset { pawns := 0, queen := 0, sideToMove := Side.WHITE, hash := 0,
          ply := 0, moveHistory := [] }

/-! ## Attack rays (game.cpp:143-203) -/

/-- One directional scan of `rookAttacks`/`bishopAttacks`: starting at
integer coordinates `(f, r)`, step by `(df, dr)` while on the board,
accumulating squares and stopping after the first occupied square.  Eight
steps of fuel cover any board line. -/
def rayAux (occupied : Nat) (f r df dr : Int) : Nat → Nat
  | 0 => 0
  | fuel + 1 =>
    if 0 ≤ f ∧ f < 8 ∧ 0 ≤ r ∧ r < 8 then
      let sq := (r * 8 + f).toNat
      if occupied &&& squareBB sq ≠ 0 then squareBB sq
      else squareBB sq ||| rayAux occupied (f + df) (r + dr) df dr fuel
    else 0

/-- `Game::rookAttacks` (game.cpp:143-170). -/
def rookAttacks (sq : Nat) (occupied : Nat) : Nat :=
  let f : Int := fileOf sq
  let r : Int := rankOf sq
  rayAux occupied f (r + 1) 0 1 8 ||| rayAux occupied f (r - 1) 0 (-1) 8 |||
    rayAux occupied (f + 1) r 1 0 8 ||| rayAux occupied (f - 1) r (-1) 0 8

/-- `Game::bishopAttacks` (game.cpp:172-199). -/
def bishopAttacks (sq : Nat) (occupied : Nat) : Nat :=
  let f : Int := fileOf sq
  let r : Int := rankOf sq
  rayAux occupied (f + 1) (r + 1) 1 1 8 ||| rayAux occupied (f - 1) (r + 1) (-1) 1 8 |||
    rayAux occupied (f + 1) (r - 1) 1 (-1) 8 ||| rayAux occupied (f - 1) (r - 1) (-1) (-1) 8

/-- `Game::queenAttacks` (game.cpp:201-203). -/
def queenAttacks (sq : Nat) (occupied : Nat) : Nat :=
  rookAttacks sq occupied ||| bishopAttacks sq occupied

theorem rayAux_lt (occupied : Nat) (f r df dr : Int) (fuel : Nat) :
    rayAux occupied f r df dr fuel < 2 ^ 64 := by
  induction fuel generalizing f r with
  | zero => simp [rayAux]
  | succ fuel ih =>
    rw [rayAux]
    split
    · rename_i hin
      have hsq : (r * 8 + f).toNat < 64 := by omega
      have h1 : squareBB (r * 8 + f).toNat < 2 ^ 64 := squareBB_lt _ hsq
      dsimp only
      split
      · exact h1
      · exact Nat.or_lt_two_pow h1 (ih _ _)
    · positivity

theorem queenAttacks_lt (sq occupied : Nat) : queenAttacks sq occupied < 2 ^ 64 := by
  unfold queenAttacks rookAttacks bishopAttacks
  apply Nat.or_lt_two_pow <;>
    [skip; exact Nat.or_lt_two_pow (Nat.or_lt_two_pow
      (Nat.or_lt_two_pow (rayAux_lt _ _ _ _ _ _) (rayAux_lt _ _ _ _ _ _))
      (rayAux_lt _ _ _ _ _ _)) (rayAux_lt _ _ _ _ _ _)]
  exact Nat.or_lt_two_pow (Nat.or_lt_two_pow
    (Nat.or_lt_two_pow (rayAux_lt _ _ _ _ _ _) (rayAux_lt _ _ _ _ _ _))
    (rayAux_lt _ _ _ _ _ _)) (rayAux_lt _ _ _ _ _ _)

/-! ## Move generation (game.cpp:205-291) -/

/-- The moves `Game::generatePawnMoves` pushes for one pawn on `fromSq`, in
push order: single push, double push, left capture, right capture. -/
def pawnMovesFrom (pawns queen fromSq : Nat) : List Move :=
  let occupied := pawns ||| queen
  let rank := rankOf fromSq
  let file := fileOf fromSq
  let toSq := fromSq + 8
  (if toSq < 64 ∧ occupied &&& squareBB toSq = 0 then
    Move.mk' fromSq toSq QUIET ::
      (if rank = 1 ∧ occupied &&& squareBB (fromSq + 16) = 0 then
        [Move.mk' fromSq (fromSq + 16) DOUBLE_PUSH]
      else [])
  else []) ++
  (if 0 < file ∧ fromSq + 7 < 64 ∧ queen &&& squareBB (fromSq + 7) ≠ 0 then
    [Move.mk' fromSq (fromSq + 7) CAPTURE]
  else []) ++
  (if file < 7 ∧ fromSq + 9 < 64 ∧ queen &&& squareBB (fromSq + 9) ≠ 0 then
    [Move.mk' fromSq (fromSq + 9) CAPTURE]
  else [])

/-- `Game::generatePawnMoves` (game.cpp:205-246). -/
def generatePawnMoves (g : Game) : List Move :=
  (bitsToList g.pawns).flatMap (pawnMovesFrom g.pawns g.queen)

/-- `Game::generateQueenMoves` (game.cpp:248-270): all non-captures (rays
into empty squares), then all captures (rays onto pawns). -/
def generateQueenMoves (g : Game) : List Move :=
  if g.queen = 0 then []
  else
    let fromSq := ctz g.queen
    let occupied := g.pawns ||| g.queen
    let attacks := queenAttacks fromSq occupied
    ((bitsToList (attacks &&& NOT64 occupied)).map fun toSq =>
      Move.mk' fromSq toSq QUIET) ++
    ((bitsToList (attacks &&& g.pawns)).map fun toSq =>
      Move.mk' fromSq toSq CAPTURE)

/-- `Game::generateLegalMoves` (game.cpp:272-283). -/
def generateLegalMoves (g : Game) : List Move :=
  match g.sideToMove with
  | Side.WHITE => generatePawnMoves g
  | Side.BLACK => generateQueenMoves g

/-- `Game::isLegalMove` (game.cpp:285-291): linear scan for an equal move. -/
def isLegalMove (g : Game) (m : Move) : Bool :=
  decide (m ∈ generateLegalMoves g)

/-! ## Move execution (game.cpp:293-377) -/

/-- The mutation body of `Game::makeMove` after the legality check. -/
def makeBody (g : Game) (m : Move) : Game :=
  match g.sideToMove with
  | Side.WHITE =>
    let undo : UndoInfo :=
      if m.isCapture then ⟨m, g.queen, g.hash⟩ else ⟨m, 0, g.hash⟩
    let hash1 := if m.isCapture then g.hash ^^^ queenKeys m.toSq else g.hash
    let queen1 := if m.isCapture then 0 else g.queen
    let hash2 := hash1 ^^^ pawnKeys m.fromSq ^^^ pawnKeys m.toSq
    let pawns2 := g.pawns &&& NOT64 (squareBB m.fromSq) ||| squareBB m.toSq
    { pawns := pawns2, queen := queen1, sideToMove := Side.BLACK,
      hash := hash2 ^^^ sideKey, ply := g.ply + 1,
      moveHistory := undo :: g.moveHistory }
  | Side.BLACK =>
    let undo : UndoInfo :=
      if m.isCapture then ⟨m, squareBB m.toSq, g.hash⟩ else ⟨m, 0, g.hash⟩
    let hash1 := if m.isCapture then g.hash ^^^ pawnKeys m.toSq else g.hash
    let pawns1 := if m.isCapture then g.pawns &&& NOT64 (squareBB m.toSq) else g.pawns
    let hash2 := hash1 ^^^ queenKeys m.fromSq ^^^ queenKeys m.toSq
    let queen2 := g.queen &&& NOT64 (squareBB m.fromSq) ||| squareBB m.toSq
    { pawns := pawns1, queen := queen2, sideToMove := Side.WHITE,
      hash := hash2 ^^^ sideKey, ply := g.ply + 1,
      moveHistory := undo :: g.moveHistory }

/-- `Game::makeMove` (game.cpp:293-340): result flag and new state. -/
def makeMove (g : Game) (m : Move) : Bool × Game :=
  if isLegalMove g m then (true, makeBody g m) else (false, g)

/-- `Game::unmakeMove` (game.cpp:342-377). -/
def unmakeMove (g : Game) : Bool × Game :=
  match g.moveHistory with
  | [] => (false, g)
  | undo :: rest =>
    let side1 := g.sideToMove.flip
    match side1 with
    | Side.WHITE =>
      let pawns1 :=
        g.pawns &&& NOT64 (squareBB undo.move.toSq) ||| squareBB undo.move.fromSq
      let queen1 := if undo.move.isCapture then undo.capturedPiece else g.queen
      (true, { pawns := pawns1, queen := queen1, sideToMove := Side.WHITE,
               hash := undo.hash, ply := g.ply - 1, moveHistory := rest })
    | Side.BLACK =>
      let queen1 :=
        g.queen &&& NOT64 (squareBB undo.move.toSq) ||| squareBB undo.move.fromSq
      let pawns1 := if undo.move.isCapture then g.pawns ||| undo.capturedPiece else g.pawns
      (true, { pawns := pawns1, queen := queen1, sideToMove := Side.BLACK,
               hash := undo.hash, ply := g.ply - 1, moveHistory := rest })

/-! ## Game state queries (game.cpp:379-415) -/

/-- `Game::getResult` (game.cpp:379-402), in its fixed priority order. -/
def getResult (g : Game) : GameResult :=
  if g.pawns &&& RANK_8 ≠ 0 then GameResult.WHITE_WINS_PROMOTION
  else if g.queen = 0 then GameResult.WHITE_WINS_CAPTURE
  else if g.pawns = 0 then GameResult.BLACK_WINS
  else if generateLegalMoves g = [] then GameResult.DRAW_STALEMATE
  else GameResult.ONGOING

/-- `Game::isGameOver` (game.cpp:404-406). -/
def isGameOver (g : Game) : Bool :=
  decide (getResult g ≠ GameResult.ONGOING)

/-- `Game::getQueenSquare` (game.cpp:408-411): `NO_SQUARE = 64` when the
queen set is empty, else `lsb(queen)`. -/
def getQueenSquare (g : Game) : Int :=
  if g.queen = 0 then 64 else lsb g.queen

/-- `Game::getPawnCount` (game.cpp:413-415). -/
def getPawnCount (g : Game) : Nat := popCount g.pawns

/-- `Game::algebraicToMove` (game.cpp:430-458) on the string's character
list.  Fewer than four characters, or any of the first four characters
denoting a file or rank off the board, yields the null move. -/
def algebraicToMove (g : Game) (s : List Char) : Move :=
  match s with
  | c0 :: c1 :: c2 :: c3 :: _ =>
    let fromFile : Int := (c0.toNat : Int) - 97
    let fromRank : Int := (c1.toNat : Int) - 49
    let toFile : Int := (c2.toNat : Int) - 97
    let toRank : Int := (c3.toNat : Int) - 49
    if fromFile < 0 ∨ 7 < fromFile ∨ fromRank < 0 ∨ 7 < fromRank ∨
        toFile < 0 ∨ 7 < toFile ∨ toRank < 0 ∨ 7 < toRank then
      Move.null
    else
      let fromSq := (fromRank * 8 + fromFile).toNat
      let toSq := (toRank * 8 + toFile).toNat
      let flags :=
        match g.sideToMove with
        | Side.WHITE =>
          if g.queen &&& squareBB toSq ≠ 0 then CAPTURE
          else if toRank - fromRank = 2 then DOUBLE_PUSH
          else QUIET
        | Side.BLACK =>
          if g.pawns &&& squareBB toSq ≠ 0 then CAPTURE else QUIET
      Move.mk' fromSq toSq flags
  | _ => Move.null

/-! ## Well-formedness and hashing invariants -/

/-- The board-shape invariant of the data model: pawn and queen sets are
disjoint 64-bit sets, and the queen set holds at most one bit. -/
def WFBoard (g : Game) : Prop :=
  g.pawns &&& g.queen = 0 ∧ popCount g.queen ≤ 1 ∧
    g.pawns < 2 ^ 64 ∧ g.queen < 2 ^ 64

/-- The fingerprint invariant: the incrementally maintained `hash` equals
the from-scratch recomputation of `setPosition`. -/
def HashInv (g : Game) : Prop :=
  g.hash = zobrist g.pawns g.queen g.sideToMove

theorem and_squareBB_ne_zero {q t : Nat} :
    q &&& squareBB t ≠ 0 ↔ q.testBit t = true := by
  constructor
  · intro h
    by_contra hb
    have hb' : q.testBit t = false := Bool.eq_false_iff.mpr hb
    refine h (Nat.eq_of_testBit_eq fun i => ?_)
    rw [Nat.testBit_and, testBit_squareBB, Nat.zero_testBit]
    by_cases hit : t = i
    · subst hit
      simp [hb']
    · simp [hit]
  · intro h hz
    have := congrArg (Nat.testBit · t) hz
    simp [Nat.testBit_and, testBit_squareBB, h] at this

theorem and_squareBB_eq_zero {q t : Nat} :
    q &&& squareBB t = 0 ↔ q.testBit t = false := by
  constructor
  · intro h
    cases hb : q.testBit t with
    | false => rfl
    | true => exact absurd h (and_squareBB_ne_zero.mpr hb)
  · intro h
    by_contra hne
    rw [and_squareBB_ne_zero.mp hne] at h
    simp at h

theorem rankOf_eq_div (sq : Nat) : rankOf sq = sq / 8 := by
  rw [rankOf, Nat.shiftRight_eq_div_pow]

theorem fileOf_eq_mod (sq : Nat) : fileOf sq = sq % 8 := by
  have h7 : (7 : Nat) = 2 ^ 3 - 1 := by norm_num
  rw [fileOf, h7, Nat.and_pow_two_sub_one_eq_mod]

/-- Shape analysis for a generated pawn move of the pawn on `f`. -/
theorem pawnMovesFrom_cases {p q f : Nat} {m : Move}
    (h : m ∈ pawnMovesFrom p q f) :
    (m = Move.mk' f (f + 8) QUIET ∧ f + 8 < 64 ∧
      (p ||| q).testBit (f + 8) = false) ∨
    (m = Move.mk' f (f + 16) DOUBLE_PUSH ∧ rankOf f = 1 ∧ f + 8 < 64 ∧
      (p ||| q).testBit (f + 8) = false ∧ (p ||| q).testBit (f + 16) = false) ∨
    (m = Move.mk' f (f + 7) CAPTURE ∧ 0 < fileOf f ∧ f + 7 < 64 ∧
      q.testBit (f + 7) = true) ∨
    (m = Move.mk' f (f + 9) CAPTURE ∧ fileOf f < 7 ∧ f + 9 < 64 ∧
      q.testBit (f + 9) = true) := by
  unfold pawnMovesFrom at h
  simp only [List.mem_append] at h
  rcases h with (h | h) | h
  · split at h
    · rename_i hc
      rw [List.mem_cons] at h
      rcases h with h | h
      · exact Or.inl ⟨h, hc.1, and_squareBB_eq_zero.mp hc.2⟩
      · split at h
        · rename_i hc2
          rw [List.mem_singleton] at h
          exact Or.inr (Or.inl ⟨h, hc2.1, hc.1, and_squareBB_eq_zero.mp hc.2,
            and_squareBB_eq_zero.mp hc2.2⟩)
        · exact absurd h (List.not_mem_nil m)
    · exact absurd h (List.not_mem_nil m)
  · split at h
    · rename_i hc
      rw [List.mem_singleton] at h
      exact Or.inr (Or.inr (Or.inl ⟨h, hc.1, hc.2.1,
        and_squareBB_ne_zero.mp hc.2.2⟩))
    · exact absurd h (List.not_mem_nil m)
  · split at h
    · rename_i hc
      rw [List.mem_singleton] at h
      exact Or.inr (Or.inr (Or.inr ⟨h, hc.1, hc.2.1,
        and_squareBB_ne_zero.mp hc.2.2⟩))
    · exact absurd h (List.not_mem_nil m)

/-- Shape analysis for a generated queen move. -/
theorem generateQueenMoves_cases {g : Game} {m : Move}
    (hp : g.pawns < 2 ^ 64) (hq : g.queen < 2 ^ 64)
    (hm : m ∈ generateQueenMoves g) :
    g.queen ≠ 0 ∧
      ((∃ t, m = Move.mk' (ctz g.queen) t QUIET ∧ t < 64 ∧
        g.pawns.testBit t = false ∧ g.queen.testBit t = false) ∨
       (∃ t, m = Move.mk' (ctz g.queen) t CAPTURE ∧ t < 64 ∧
        g.pawns.testBit t = true)) := by
  unfold generateQueenMoves at hm
  split at hm
  · exact absurd hm (List.not_mem_nil m)
  · rename_i hq0
    refine ⟨hq0, ?_⟩
    have hocc : g.pawns ||| g.queen < 2 ^ 64 := Nat.or_lt_two_pow hp hq
    simp only [List.mem_append, List.mem_map] at hm
    rcases hm with ⟨t, ht, hmk⟩ | ⟨t, ht, hmk⟩
    · left
      refine ⟨t, hmk.symm, ?_⟩
      have htb := mem_bitsToList.mp ht
      rw [Nat.testBit_and, testBit_NOT64 _ _ hocc, Bool.and_eq_true] at htb
      rcases htb with ⟨_, htb2⟩
      rw [Bool.and_eq_true, decide_eq_true_eq, Bool.not_eq_true'] at htb2
      rcases htb2 with ⟨ht64, hocc0⟩
      rw [Nat.testBit_or, Bool.or_eq_false_iff] at hocc0
      exact ⟨ht64, hocc0.1, hocc0.2⟩
    · right
      refine ⟨t, hmk.symm, ?_⟩
      have htb := mem_bitsToList.mp ht
      rw [Nat.testBit_and, Bool.and_eq_true] at htb
      exact ⟨lt_64_of_testBit hp htb.2, htb.2⟩

theorem xor_left_comm (a b c : Nat) : a ^^^ (b ^^^ c) = b ^^^ (a ^^^ c) := by
  rw [← Nat.xor_assoc, Nat.xor_comm a b, Nat.xor_assoc]

theorem disjoint_testBit_left {a b : Nat} (hd : a &&& b = 0) {i : Nat}
    (h : b.testBit i = true) : a.testBit i = false := by
  have := and_eq_zero_iff.mp hd i
  simpa [h] using this

theorem disjoint_testBit_right {a b : Nat} (hd : a &&& b = 0) {i : Nat}
    (h : a.testBit i = true) : b.testBit i = false := by
  have := and_eq_zero_iff.mp hd i
  simpa [h] using this

/-- Full analysis of a legal WHITE (pawn) move. -/
theorem white_legal_analysis {g : Game} {m : Move}
    (hside : g.sideToMove = Side.WHITE)
    (hd : g.pawns &&& g.queen = 0) (hp : g.pawns < 2 ^ 64)
    (hm : m ∈ generateLegalMoves g) :
    ∃ f t fl, m = Move.mk' f t fl ∧ f < 64 ∧ t < 64 ∧ fl < 16 ∧ f ≠ t ∧
      g.pawns.testBit f = true ∧ g.pawns.testBit t = false ∧
      ((fl = CAPTURE ∧ g.queen.testBit t = true) ∨
       ((fl = QUIET ∨ fl = DOUBLE_PUSH) ∧ g.queen.testBit t = false)) := by
  rw [generateLegalMoves, hside] at hm
  rw [generatePawnMoves, List.mem_flatMap] at hm
  obtain ⟨f, hf, hmm⟩ := hm
  have hfb : g.pawns.testBit f = true := mem_bitsToList.mp hf
  have hf64 : f < 64 := lt_64_of_testBit hp hfb
  rcases pawnMovesFrom_cases hmm with ⟨he, ht64, hocc⟩ | ⟨he, hrk, _, _, hocc⟩ |
      ⟨he, _, ht64, hqb⟩ | ⟨he, _, ht64, hqb⟩
  · rw [Nat.testBit_or, Bool.or_eq_false_iff] at hocc
    exact ⟨f, f + 8, QUIET, he, hf64, ht64, by norm_num [QUIET], by omega,
      hfb, hocc.1, Or.inr ⟨Or.inl rfl, hocc.2⟩⟩
  · rw [Nat.testBit_or, Bool.or_eq_false_iff] at hocc
    have ht64 : f + 16 < 64 := by
      rw [rankOf_eq_div] at hrk
      omega
    exact ⟨f, f + 16, DOUBLE_PUSH, he, hf64, ht64, by norm_num [DOUBLE_PUSH],
      by omega, hfb, hocc.1, Or.inr ⟨Or.inr rfl, hocc.2⟩⟩
  · exact ⟨f, f + 7, CAPTURE, he, hf64, ht64, by norm_num [CAPTURE], by omega,
      hfb, disjoint_testBit_left hd hqb, Or.inl ⟨rfl, hqb⟩⟩
  · exact ⟨f, f + 9, CAPTURE, he, hf64, ht64, by norm_num [CAPTURE], by omega,
      hfb, disjoint_testBit_left hd hqb, Or.inl ⟨rfl, hqb⟩⟩

/-- Full analysis of a legal BLACK (queen) move. -/
theorem black_legal_analysis {g : Game} {m : Move}
    (hside : g.sideToMove = Side.BLACK)
    (hd : g.pawns &&& g.queen = 0) (hp : g.pawns < 2 ^ 64)
    (hq : g.queen < 2 ^ 64) (hm : m ∈ generateLegalMoves g) :
    g.queen ≠ 0 ∧
      ∃ t fl, m = Move.mk' (ctz g.queen) t fl ∧ ctz g.queen < 64 ∧ t < 64 ∧
        fl < 16 ∧ ctz g.queen ≠ t ∧
        g.queen.testBit (ctz g.queen) = true ∧ g.queen.testBit t = false ∧
        ((fl = CAPTURE ∧ g.pawns.testBit t = true) ∨
         (fl = QUIET ∧ g.pawns.testBit t = false)) := by
  rw [generateLegalMoves, hside] at hm
  obtain ⟨hq0, hcases⟩ := generateQueenMoves_cases hp hq hm
  have hfb : g.queen.testBit (ctz g.queen) = true := testBit_ctz hq0
  have hf64 : ctz g.queen < 64 := lt_64_of_testBit hq hfb
  refine ⟨hq0, ?_⟩
  rcases hcases with ⟨t, he, ht64, hpb, hqb⟩ | ⟨t, he, ht64, hpb⟩
  · have hne : ctz g.queen ≠ t := by
      intro hc
      rw [hc, hqb] at hfb
      exact Bool.false_ne_true hfb
    exact ⟨t, QUIET, he, hf64, ht64, by norm_num [QUIET], hne, hfb, hqb,
      Or.inr ⟨rfl, hpb⟩⟩
  · have hqb : g.queen.testBit t = false := disjoint_testBit_right hd hpb
    have hne : ctz g.queen ≠ t := by
      intro hc
      rw [hc, hqb] at hfb
      exact Bool.false_ne_true hfb
    exact ⟨t, CAPTURE, he, hf64, ht64, by norm_num [CAPTURE], hne, hfb, hqb,
      Or.inl ⟨rfl, hpb⟩⟩

/-- The piece-move update `bb &= ~squareBB(from); bb |= squareBB(to)` as a
double xor. -/
theorem move_bits_update {bb f t : Nat} (hbb : bb < 2 ^ 64) (hf : f < 64)
    (hne : f ≠ t) (hfb : bb.testBit f = true) (htb : bb.testBit t = false) :
    bb &&& NOT64 (squareBB f) ||| squareBB t = bb ^^^ squareBB f ^^^ squareBB t := by
  rw [and_NOT64_squareBB hbb hf hfb]
  have h2 : (bb ^^^ squareBB f).testBit t = false := by
    rw [Nat.testBit_xor, testBit_squareBB, htb]
    simp [hne]
  rw [or_squareBB h2]

/-- Undoing a piece move restores the original bit-set. -/
theorem unmove_bits_update {bb f t : Nat} (hbb : bb < 2 ^ 64) (hf : f < 64)
    (ht : t < 64) (hne : f ≠ t) (hfb : bb.testBit f = true)
    (htb : bb.testBit t = false) :
    (bb ^^^ squareBB f ^^^ squareBB t) &&& NOT64 (squareBB t) ||| squareBB f = bb := by
  have hlt : bb ^^^ squareBB f ^^^ squareBB t < 2 ^ 64 :=
    Nat.xor_lt_two_pow (Nat.xor_lt_two_pow hbb (squareBB_lt f hf)) (squareBB_lt t ht)
  have h1 : (bb ^^^ squareBB f ^^^ squareBB t).testBit t = true := by
    rw [Nat.testBit_xor, Nat.testBit_xor, testBit_squareBB, testBit_squareBB, htb]
    simp [hne]
  rw [and_NOT64_squareBB hlt ht h1, Nat.xor_cancel_right]
  have h2 : (bb ^^^ squareBB f).testBit f = false := by
    rw [Nat.testBit_xor, testBit_squareBB, hfb]
    simp
  rw [or_squareBB h2, Nat.xor_cancel_right]

theorem Move.isCapture_mk' {f t fl : Nat} (hf : f < 64) (ht : t < 64)
    (hfl : fl < 16) : (Move.mk' f t fl).isCapture = (fl &&& 4 != 0) := by
  rw [Move.isCapture, Move.flags_mk' hf ht hfl]

/-! ### Unfolding `makeBody` and `unmakeMove` by side and capture flag -/

theorem makeBody_white_noncapture {g : Game} {m : Move}
    (hside : g.sideToMove = Side.WHITE) (hcap : m.isCapture = false) :
    makeBody g m =
      { pawns := g.pawns &&& NOT64 (squareBB m.fromSq) ||| squareBB m.toSq,
        queen := g.queen, sideToMove := Side.BLACK,
        hash := g.hash ^^^ pawnKeys m.fromSq ^^^ pawnKeys m.toSq ^^^ sideKey,
        ply := g.ply + 1,
        moveHistory := ⟨m, 0, g.hash⟩ :: g.moveHistory } := by
  rw [makeBody]
  rw [hside]
  simp [hcap]

theorem makeBody_white_capture {g : Game} {m : Move}
    (hside : g.sideToMove = Side.WHITE) (hcap : m.isCapture = true) :
    makeBody g m =
      { pawns := g.pawns &&& NOT64 (squareBB m.fromSq) ||| squareBB m.toSq,
        queen := 0, sideToMove := Side.BLACK,
        hash := g.hash ^^^ queenKeys m.toSq ^^^ pawnKeys m.fromSq ^^^
          pawnKeys m.toSq ^^^ sideKey,
        ply := g.ply + 1,
        moveHistory := ⟨m, g.queen, g.hash⟩ :: g.moveHistory } := by
  rw [makeBody]
  rw [hside]
  simp [hcap]

theorem makeBody_black_noncapture {g : Game} {m : Move}
    (hside : g.sideToMove = Side.BLACK) (hcap : m.isCapture = false) :
    makeBody g m =
      { pawns := g.pawns,
        queen := g.queen &&& NOT64 (squareBB m.fromSq) ||| squareBB m.toSq,
        sideToMove := Side.WHITE,
        hash := g.hash ^^^ queenKeys m.fromSq ^^^ queenKeys m.toSq ^^^ sideKey,
        ply := g.ply + 1,
        moveHistory := ⟨m, 0, g.hash⟩ :: g.moveHistory } := by
  rw [makeBody]
  rw [hside]
  simp [hcap]

theorem makeBody_black_capture {g : Game} {m : Move}
    (hside : g.sideToMove = Side.BLACK) (hcap : m.isCapture = true) :
    makeBody g m =
      { pawns := g.pawns &&& NOT64 (squareBB m.toSq),
        queen := g.queen &&& NOT64 (squareBB m.fromSq) ||| squareBB m.toSq,
        sideToMove := Side.WHITE,
        hash := g.hash ^^^ pawnKeys m.toSq ^^^ queenKeys m.fromSq ^^^
          queenKeys m.toSq ^^^ sideKey,
        ply := g.ply + 1,
        moveHistory := ⟨m, squareBB m.toSq, g.hash⟩ :: g.moveHistory } := by
  rw [makeBody]
  rw [hside]
  simp [hcap]

/-- Core round trip: undoing a just-made legal move restores the state
exactly (for well-formed boards). -/
theorem unmake_makeBody {g : Game} {m : Move} (hwf : WFBoard g)
    (hm : m ∈ generateLegalMoves g) :
    unmakeMove (makeBody g m) = (true, g) := by
  obtain ⟨gp, gq, gs, gh, gply, ghist⟩ := g
  obtain ⟨hd, hc1, hp, hq⟩ := hwf
  simp only at hd hc1 hp hq hm ⊢
  cases gs with
  | WHITE =>
    obtain ⟨f, t, fl, hme, hf, ht, hfl, hne, hfb, htb, hcase⟩ :=
      white_legal_analysis rfl hd hp hm
    simp only at hfb htb hcase
    have hfrom : m.fromSq = f := by rw [hme, Move.fromSq_mk' hf ht hfl]
    have hto : m.toSq = t := by rw [hme, Move.toSq_mk' hf ht hfl]
    have hpawns := move_bits_update hp hf hne hfb htb
    have hun := unmove_bits_update hp hf ht hne hfb htb
    rcases hcase with ⟨hfl4, hqb⟩ | ⟨hfl01, hqb⟩
    · have hcap : m.isCapture = true := by
        rw [hme, Move.isCapture_mk' hf ht hfl, hfl4]
        rfl
      rw [makeBody_white_capture rfl hcap]
      rw [unmakeMove]
      simp only [Side.flip, hcap, hfrom, hto, hpawns, hun, Int.add_sub_cancel]
      rw [Prod.mk.injEq]
      refine ⟨rfl, ?_⟩
      simp only [Game.mk.injEq]
      simp
    · have hcap : m.isCapture = false := by
        rw [hme, Move.isCapture_mk' hf ht hfl]
        rcases hfl01 with h | h <;> rw [h] <;> rfl
      rw [makeBody_white_noncapture rfl hcap]
      rw [unmakeMove]
      simp only [Side.flip, hcap, hfrom, hto, hpawns, hun, Int.add_sub_cancel]
      rw [Prod.mk.injEq]
      refine ⟨rfl, ?_⟩
      simp only [Game.mk.injEq]
      simp
  | BLACK =>
    obtain ⟨hq0, t, fl, hme, hf, ht, hfl, hne, hfb, htb, hcase⟩ :=
      black_legal_analysis rfl hd hp hq hm
    simp only at hq0 hme hf hne hfb htb hcase
    have hfrom : m.fromSq = ctz gq := by rw [hme, Move.fromSq_mk' hf ht hfl]
    have hto : m.toSq = t := by rw [hme, Move.toSq_mk' hf ht hfl]
    have hqueen := move_bits_update hq hf hne hfb htb
    have hunq := unmove_bits_update hq hf ht hne hfb htb
    rcases hcase with ⟨hfl4, hpb⟩ | ⟨hfl0, hpb⟩
    · have hcap : m.isCapture = true := by
        rw [hme, Move.isCapture_mk' hf ht hfl, hfl4]
        rfl
      rw [makeBody_black_capture rfl hcap]
      rw [unmakeMove]
      simp only [Side.flip, hcap, hfrom, hto, hqueen, hunq, Int.add_sub_cancel]
      rw [Prod.mk.injEq]
      refine ⟨rfl, ?_⟩
      have hpx : gp &&& NOT64 (squareBB t) = gp ^^^ squareBB t :=
        and_NOT64_squareBB hp ht hpb
      have hrestore : (gp ^^^ squareBB t) ||| squareBB t = gp := by
        have hb : (gp ^^^ squareBB t).testBit t = false := by
          rw [Nat.testBit_xor, testBit_squareBB, hpb]
          simp
        rw [or_squareBB hb, Nat.xor_cancel_right]
      rw [hpx, hrestore]
      simp only [Game.mk.injEq]
      simp
    · have hcap : m.isCapture = false := by
        rw [hme, Move.isCapture_mk' hf ht hfl, hfl0]
        rfl
      rw [makeBody_black_noncapture rfl hcap]
      rw [unmakeMove]
      simp only [Side.flip, hcap, hfrom, hto, hqueen, hunq, Int.add_sub_cancel]
      rw [Prod.mk.injEq]
      refine ⟨rfl, ?_⟩
      simp only [Game.mk.injEq]
      simp

/-- Executing a legal move preserves the board invariant and the
incremental-hash invariant. -/
theorem makeBody_preserves {g : Game} {m : Move} (hwf : WFBoard g)
    (hh : HashInv g) (hm : m ∈ generateLegalMoves g) :
    WFBoard (makeBody g m) ∧ HashInv (makeBody g m) := by
  obtain ⟨gp, gq, gs, gh, gply, ghist⟩ := g
  obtain ⟨hd, hc1, hp, hq⟩ := hwf
  rw [HashInv] at hh
  simp only at hd hc1 hp hq hm hh ⊢
  cases gs with
  | WHITE =>
    obtain ⟨f, t, fl, hme, hf, ht, hfl, hne, hfb, htb, hcase⟩ :=
      white_legal_analysis rfl hd hp hm
    simp only at hfb htb hcase
    have hfrom : m.fromSq = f := by rw [hme, Move.fromSq_mk' hf ht hfl]
    have hto : m.toSq = t := by rw [hme, Move.toSq_mk' hf ht hfl]
    have hpawns := move_bits_update hp hf hne hfb htb
    have hlt : gp ^^^ squareBB f ^^^ squareBB t < 2 ^ 64 :=
      Nat.xor_lt_two_pow (Nat.xor_lt_two_pow hp (squareBB_lt f hf))
        (squareBB_lt t ht)
    have hzp : zobristPiece pawnKeys (gp ^^^ squareBB f ^^^ squareBB t) =
        zobristPiece pawnKeys gp ^^^ pawnKeys f ^^^ pawnKeys t := by
      rw [squareBB_eq_pow, squareBB_eq_pow, zobristPiece_xor_pow,
        zobristPiece_xor_pow]
    rcases hcase with ⟨hfl4, hqb⟩ | ⟨hfl01, hqb⟩
    · have hcap : m.isCapture = true := by
        rw [hme, Move.isCapture_mk' hf ht hfl, hfl4]
        rfl
      rw [makeBody_white_capture rfl hcap]
      have hgq : gq = squareBB t := by
        rw [squareBB_eq_pow]
        exact eq_two_pow_of_popCount_le_one hc1 hqb
      constructor
      · refine ⟨by simp, ?_, ?_, by positivity⟩
        · simp only
          rw [popCount_eq]
          simp
        · simp only [hfrom, hto, hpawns]
          exact hlt
      · rw [HashInv]
        simp only [hfrom, hto, hpawns]
        rw [zobrist_split] at hh ⊢
        simp only [if_neg (by simp : ¬Side.WHITE = Side.BLACK),
          if_pos rfl, Nat.xor_zero] at hh ⊢
        rw [hzp, hh, hgq, squareBB_eq_pow, zobristPiece_pow, zobristPiece_zero]
        simp only [Nat.xor_zero]
        simp [Nat.xor_assoc, Nat.xor_comm, xor_left_comm, Nat.xor_cancel_left,
          Nat.xor_cancel_right, Nat.xor_self]
    · have hcap : m.isCapture = false := by
        rw [hme, Move.isCapture_mk' hf ht hfl]
        rcases hfl01 with h | h <;> rw [h] <;> rfl
      rw [makeBody_white_noncapture rfl hcap]
      constructor
      · refine ⟨?_, hc1, ?_, hq⟩
        · simp only [hfrom, hto, hpawns]
          rw [and_eq_zero_iff]
          intro i
          rw [Nat.testBit_xor, Nat.testBit_xor, testBit_squareBB, testBit_squareBB]
          by_cases hif : f = i
          · subst hif
            rw [disjoint_testBit_right hd hfb]
            simp
          · by_cases hit : t = i
            · subst hit
              rw [hqb]
              simp
            · have := and_eq_zero_iff.mp hd i
              simp [hif, hit, this]
        · simp only [hfrom, hto, hpawns]
          exact hlt
      · rw [HashInv]
        simp only [hfrom, hto, hpawns]
        rw [zobrist_split] at hh ⊢
        simp only [if_neg (by simp : ¬Side.WHITE = Side.BLACK),
          if_pos rfl, Nat.xor_zero] at hh ⊢
        rw [hzp, hh]
        simp [Nat.xor_assoc, Nat.xor_comm, xor_left_comm, Nat.xor_cancel_left,
          Nat.xor_cancel_right, Nat.xor_self]
  | BLACK =>
    obtain ⟨hq0, t, fl, hme, hf, ht, hfl, hne, hfb, htb, hcase⟩ :=
      black_legal_analysis rfl hd hp hq hm
    simp only at hq0 hme hf hne hfb htb hcase
    have hfrom : m.fromSq = ctz gq := by rw [hme, Move.fromSq_mk' hf ht hfl]
    have hto : m.toSq = t := by rw [hme, Move.toSq_mk' hf ht hfl]
    have hqueen := move_bits_update hq hf hne hfb htb
    have hgq : gq = squareBB (ctz gq) := by
      rw [squareBB_eq_pow]
      exact eq_two_pow_of_popCount_le_one hc1 hfb
    have hqred : gq ^^^ squareBB (ctz gq) ^^^ squareBB t = squareBB t := by
      nth_rewrite 1 [hgq]
      rw [Nat.xor_self, Nat.zero_xor]
    have hzq : zobristPiece queenKeys (gq ^^^ squareBB (ctz gq) ^^^ squareBB t) =
        zobristPiece queenKeys gq ^^^ queenKeys (ctz gq) ^^^ queenKeys t := by
      rw [squareBB_eq_pow, squareBB_eq_pow, zobristPiece_xor_pow,
        zobristPiece_xor_pow]
    have hzgq : zobristPiece queenKeys gq = queenKeys (ctz gq) := by
      nth_rewrite 1 [hgq]
      rw [squareBB_eq_pow, zobristPiece_pow]
    rcases hcase with ⟨hfl4, hpb⟩ | ⟨hfl0, hpb⟩
    · have hcap : m.isCapture = true := by
        rw [hme, Move.isCapture_mk' hf ht hfl, hfl4]
        rfl
      rw [makeBody_black_capture rfl hcap]
      have hpx : gp &&& NOT64 (squareBB t) = gp ^^^ squareBB t :=
        and_NOT64_squareBB hp ht hpb
      constructor
      · refine ⟨?_, ?_, ?_, ?_⟩
        · simp only [hfrom, hto, hqueen, hqred, hpx]
          rw [and_eq_zero_iff]
          intro i
          rw [Nat.testBit_xor, testBit_squareBB]
          by_cases hit : t = i
          · subst hit
            rw [hpb]
            simp
          · simp [hit]
        · simp only [hfrom, hto, hqueen, hqred]
          rw [squareBB_eq_pow, popCount_two_pow]
        · simp only [hfrom, hto, hpx]
          exact Nat.xor_lt_two_pow hp (squareBB_lt t ht)
        · simp only [hfrom, hto, hqueen, hqred]
          exact squareBB_lt t ht
      · rw [HashInv]
        simp only [hfrom, hto, hqueen, hpx]
        rw [zobrist_split] at hh ⊢
        simp only [if_neg (by simp : ¬Side.WHITE = Side.BLACK),
          if_pos rfl, Nat.xor_zero] at hh ⊢
        rw [hzq, hzgq, hh]
        have hzpx : zobristPiece pawnKeys (gp ^^^ squareBB t) =
            zobristPiece pawnKeys gp ^^^ pawnKeys t := by
          rw [squareBB_eq_pow, zobristPiece_xor_pow]
        rw [hzpx, hzgq]
        simp [Nat.xor_assoc, Nat.xor_comm, xor_left_comm, Nat.xor_cancel_left,
          Nat.xor_cancel_right, Nat.xor_self, hzgq]
    · have hcap : m.isCapture = false := by
        rw [hme, Move.isCapture_mk' hf ht hfl, hfl0]
        rfl
      rw [makeBody_black_noncapture rfl hcap]
      constructor
      · refine ⟨?_, ?_, hp, ?_⟩
        · simp only [hfrom, hto, hqueen, hqred]
          rw [and_eq_zero_iff]
          intro i
          rw [testBit_squareBB]
          by_cases hit : t = i
          · subst hit
            rw [hpb]
            simp
          · simp [hit]
        · simp only [hfrom, hto, hqueen, hqred]
          rw [squareBB_eq_pow, popCount_two_pow]
        · simp only [hfrom, hto, hqueen, hqred]
          exact squareBB_lt t ht
      · rw [HashInv]
        simp only [hfrom, hto, hqueen]
        rw [zobrist_split] at hh ⊢
        simp only [if_neg (by simp : ¬Side.WHITE = Side.BLACK),
          if_pos rfl, Nat.xor_zero] at hh ⊢
        rw [hzq, hzgq, hh]
        simp [Nat.xor_assoc, Nat.xor_comm, xor_left_comm, Nat.xor_cancel_left,
          Nat.xor_cancel_right, Nat.xor_self, hzgq]

/-! ## Reachable states -/

/-- States whose board is well formed, whose hash satisfies the fingerprint
invariant, and whose undo stack faithfully records the moves that produced
them: an empty-history well-formed state, extended by legal moves. -/
inductive GoodState : Game → Prop where
  | base : ∀ g, WFBoard g → HashInv g → g.moveHistory = [] → GoodState g
  | step : ∀ g m, GoodState g → m ∈ generateLegalMoves g → GoodState (makeBody g m)

theorem GoodState.wf_hash {g : Game} (h : GoodState g) : WFBoard g ∧ HashInv g := by
  induction h with
  | base g hwf hh _ => exact ⟨hwf, hh⟩
  | step g m hg hm ih => exact makeBody_preserves ih.1 ih.2 hm

theorem GoodState.unmake {g : Game} (h : GoodState g) :
    GoodState (unmakeMove g).2 := by
  cases h with
  | base g hwf hh hhist =>
    obtain ⟨gp, gq, gs, gh, gply, ghist⟩ := g
    simp only at hhist
    subst hhist
    exact GoodState.base _ hwf hh rfl
  | step g m hg hm =>
    rw [unmake_makeBody hg.wf_hash.1 hm]
    exact hg

theorem goodState_setPosition (p q : Nat) (side : Side) (hd : p &&& q = 0)
    (hc : popCount q ≤ 1) (hp : p < 2 ^ 64) (hq : q < 2 ^ 64) :
    GoodState (setPosition p q side) :=
  GoodState.base _ ⟨hd, hc, hp, hq⟩ rfl rfl

theorem goodState_initial : GoodState initialGame := by
  refine GoodState.base _ ⟨?_, ?_, ?_, ?_⟩ ?_ rfl
  · decide
  · decide
  · decide
  · decide
  · rw [HashInv]
    decide

theorem reset_eq_initial {g : Game} (hhist : g.moveHistory = []) :
    reset g = initialGame := by
  rw [reset, initialGame, reset, hhist]

/-- The states reachable through the public mutators, restricted to
"legal-looking" `setPosition` arguments (disjoint sets, at most one queen
bit) and to `reset` on an empty history. -/
inductive ReachableWF : Game → Prop where
  | init : ReachableWF initialGame
  | rst : ∀ g, ReachableWF g → g.moveHistory = [] → ReachableWF (reset g)
  | setPos : ∀ g p q side, ReachableWF g → p &&& q = 0 → popCount q ≤ 1 →
      p < 2 ^ 64 → q < 2 ^ 64 → ReachableWF (setPosition p q side)
  | mk : ∀ g m, ReachableWF g → ReachableWF (makeMove g m).2
  | unmk : ∀ g, ReachableWF g → ReachableWF (unmakeMove g).2

theorem ReachableWF.good {g : Game} (h : ReachableWF g) : GoodState g := by
  induction h with
  | init => exact goodState_initial
  | rst g hr hhist ih =>
    rw [reset_eq_initial hhist]
    exact goodState_initial
  | setPos g p q side hr hd hc hp hq ih =>
    exact goodState_setPosition p q side hd hc hp hq
  | mk g m hr ih =>
    rw [makeMove]
    by_cases hleg : isLegalMove g m
    · rw [if_pos hleg]
      exact GoodState.step g m ih (of_decide_eq_true hleg)
    · rw [if_neg hleg]
      exact ih
  | unmk g hr ih => exact ih.unmake

/-! ## AI components (ai.h, ai.cpp) -/

/-- `MATE_SCORE` (ai.h:145). -/
def MATE_SCORE : Int := 100000

/-- `TT_SIZE` (ai.h:114): `1 << 20` entries. -/
def TT_SIZE : Nat := 2 ^ 20

/-- `enum TTFlag` (ai.h:14-18). -/
inductive TTFlag where
  | TT_EXACT
  | TT_ALPHA
  | TT_BETA
deriving DecidableEq

/-- `struct TTEntry` (ai.h:21-32).  `score` holds the value of the
`int16_t` field (wrapped at store time), `depth` the `int8_t` field, and
`age` the `uint8_t` generation tag. -/
structure TTEntry where
  hash : Nat
  score : Int
  depth : Int
  flag : TTFlag
  bestMove : Move
  age : Nat
deriving DecidableEq

/-- The zero-initialised `TTEntry{}` used by `AI::clearHash`. -/
def emptyTTEntry : TTEntry :=
  ⟨0, 0, 0, TTFlag.TT_EXACT, Move.null, 0⟩

/-- Two's-complement narrowing `static_cast<int16_t>`. -/
def toInt16 (x : Int) : Int := (x + 2 ^ 15) % 2 ^ 16 - 2 ^ 15

/-- Two's-complement narrowing `static_cast<int8_t>`. -/
def toInt8 (x : Int) : Int := (x + 2 ^ 7) % 2 ^ 8 - 2 ^ 7

/-- `AI::storeTT` (ai.cpp:166-179).  The table is modelled as a function
from slot index to entry; `ttAge` is the current generation tag. -/
def storeTT (tbl : Nat → TTEntry) (ttAge : Nat) (hash : Nat) (score : Int)
    (depth : Int) (flag : TTFlag) (bestMove : Move) : Nat → TTEntry :=
  let index := hash % TT_SIZE
  let entry := tbl index
  if entry.hash ≠ hash ∨ depth ≥ entry.depth ∨ entry.age ≠ ttAge then
    fun i =>
      if i = index then ⟨hash, toInt16 score, toInt8 depth, flag, bestMove, ttAge⟩
      else tbl i
  else tbl

/-- `AI::probeTT` (ai.cpp:181-192).  The age comparison `entry.age == ttAge`
and `entry.age == ttAge - 1` happens after C++ integer promotion of the
`uint8_t` operands to `int`, so `ttAge - 1` is the mathematical integer
difference (it is `-1`, not `255`, when `ttAge` is `0`). -/
def probeTT (tbl : Nat → TTEntry) (ttAge : Nat) (hash : Nat) : Option TTEntry :=
  let entry := tbl (hash % TT_SIZE)
  if entry.hash = hash ∧
      (entry.age = ttAge ∨ (entry.age : Int) = (ttAge : Int) - 1) then
    some entry
  else none

/-- The generation bump `ttAge++` performed once at the top of `AI::search`
(ai.cpp:480) on the `uint8_t` counter. -/
def nextSearchAge (ttAge : Nat) : Nat := (ttAge + 1) % 256

/-- The mate-score re-bias applied to `bestScore` before `storeTT`
(ai.cpp:466-468): two sequential conditional updates. -/
def storeScoreAdjust (score ply : Int) : Int :=
  let s1 := if score > MATE_SCORE - 1000 then score + ply else score
  if s1 < -MATE_SCORE + 1000 then s1 - ply else s1

/-- The mate-score re-bias applied to a probed `ttEntry->score`
(ai.cpp:372-375). -/
def ttScoreAdjust (score ply : Int) : Int :=
  let s1 := if score > MATE_SCORE - 1000 then score - ply else score
  if s1 < -MATE_SCORE + 1000 then s1 + ply else s1

/-- `AI::scoreMove` (ai.cpp:194-234).  `killers` is the per-ply pair of
killer moves, `histTable` the history table indexed by origin and
destination. -/
def scoreMove (m : Move) (side : Side) (ttMove : Move) (ply : Nat)
    (killers : Nat → Move × Move) (histTable : Nat → Nat → Int) : Int :=
  if m = ttMove then 1000000
  else
    let s1 : Int :=
      if m.isCapture then (if side = Side.WHITE then 900000 else 100000) else 0
    let s2 :=
      if ply < 128 then
        if m = (killers ply).1 then s1 + 90000
        else if m = (killers ply).2 then s1 + 80000
        else s1
      else s1
    let s3 := s2 + histTable m.fromSq m.toSq
    let s4 := if side = Side.WHITE ∧ 56 ≤ m.toSq then s3 + 500000 else s3
    if side = Side.WHITE then s4 + (rankOf m.toSq : Int) * 100 else s4

/-- The scored pair list built by `AI::orderMoves` (ai.cpp:237-242). -/
def scoredList (moves : List Move) (side : Side) (ttMove : Move) (ply : Nat)
    (killers : Nat → Move × Move) (histTable : Nat → Nat → Int) :
    List (Int × Move) :=
  moves.map fun m => (scoreMove m side ttMove ply killers histTable, m)

/-- The contract of `std::sort` with comparator `a.first > b.first`
(ai.cpp:244-245): some permutation of the input that is sorted for the
comparator.  The C++ standard leaves the order of equivalent elements
unspecified, so the call is modelled as this relation. -/
def IsStdSortResult (l out : List (Int × Move)) : Prop :=
  out.Perm l ∧ out.Pairwise fun a b => b.1 ≤ a.1

/-- `AI::orderMoves` (ai.cpp:236-250) as a relation between the input move
list and the reordered list written back. -/
def orderMovesRel (moves : List Move) (side : Side) (ttMove : Move) (ply : Nat)
    (killers : Nat → Move × Move) (histTable : Nat → Nat → Int)
    (out : List Move) : Prop :=
  ∃ sorted, IsStdSortResult (scoredList moves side ttMove ply killers histTable)
    sorted ∧ out = sorted.map Prod.snd

/-! ## Claim theorems -/

theorem RANK_8_testBit (i : Nat) :
    RANK_8.testBit i = decide (56 ≤ i ∧ i < 64) := by
  have he : RANK_8 = (2 ^ 64 - 1) ^^^ (2 ^ 56 - 1) := by decide
  rw [he, Nat.testBit_xor, Nat.testBit_two_pow_sub_one,
    Nat.testBit_two_pow_sub_one]
  by_cases h1 : i < 56
  · simp [h1]
    omega
  · by_cases h2 : i < 64 <;> simp [h1, h2] <;> omega

theorem and_RANK8_ne_zero {p : Nat} :
    p &&& RANK_8 ≠ 0 ↔ ∃ i, 56 ≤ i ∧ i < 64 ∧ p.testBit i = true := by
  constructor
  · intro h
    obtain ⟨i, hi⟩ := Nat.ne_zero_implies_bit_true h
    rw [Nat.testBit_and, Bool.and_eq_true, RANK_8_testBit,
      decide_eq_true_eq] at hi
    exact ⟨i, hi.2.1, hi.2.2, hi.1⟩
  · rintro ⟨i, h56, h64, hb⟩ hz
    have := congrArg (Nat.testBit · i) hz
    simp only [Nat.testBit_and, Nat.zero_testBit, RANK_8_testBit, hb] at this
    simp [h56, h64] at this

/-- C3: `getResult` classifies every state in the fixed priority order:
a pawn on the far rank gives the advancement win; else an empty queen set
gives the capture win; else an empty pawn set gives the second side's win;
else an empty legal-move list gives the stalemate draw; else the game is
ongoing. -/
theorem getResult_priority_order (g : Game) :
    ((∃ i, 56 ≤ i ∧ i < 64 ∧ g.pawns.testBit i = true) →
      getResult g = GameResult.WHITE_WINS_PROMOTION) ∧
    (¬(∃ i, 56 ≤ i ∧ i < 64 ∧ g.pawns.testBit i = true) → g.queen = 0 →
      getResult g = GameResult.WHITE_WINS_CAPTURE) ∧
    (¬(∃ i, 56 ≤ i ∧ i < 64 ∧ g.pawns.testBit i = true) → g.queen ≠ 0 →
      g.pawns = 0 → getResult g = GameResult.BLACK_WINS) ∧
    (¬(∃ i, 56 ≤ i ∧ i < 64 ∧ g.pawns.testBit i = true) → g.queen ≠ 0 →
      g.pawns ≠ 0 → generateLegalMoves g = [] →
      getResult g = GameResult.DRAW_STALEMATE) ∧
    (¬(∃ i, 56 ≤ i ∧ i < 64 ∧ g.pawns.testBit i = true) → g.queen ≠ 0 →
      g.pawns ≠ 0 → generateLegalMoves g ≠ [] →
      getResult g = GameResult.ONGOING) := by
  refine ⟨?_, ?_, ?_, ?_, ?_⟩
  · intro h
    rw [getResult, if_pos (and_RANK8_ne_zero.mpr h)]
  · intro h hq
    rw [getResult, if_neg (fun hc => h (and_RANK8_ne_zero.mp hc)), if_pos hq]
  · intro h hq hp
    rw [getResult, if_neg (fun hc => h (and_RANK8_ne_zero.mp hc)), if_neg hq,
      if_pos hp]
  · intro h hq hp hmv
    rw [getResult, if_neg (fun hc => h (and_RANK8_ne_zero.mp hc)), if_neg hq,
      if_neg hp, if_pos hmv]
  · intro h hq hp hmv
    rw [getResult, if_neg (fun hc => h (and_RANK8_ne_zero.mp hc)), if_neg hq,
      if_neg hp, if_neg hmv]

/-- Witness for C3 at concrete positions exercising the promotion branch and
the ongoing branch. -/
theorem getResult_priority_order_witness :
    getResult (setPosition (squareBB 60) (squareBB 0) Side.BLACK) =
      GameResult.WHITE_WINS_PROMOTION ∧
    getResult initialGame = GameResult.ONGOING := by
  constructor
  · exact (getResult_priority_order _).1 ⟨60, by decide, by decide, by decide⟩
  · exact (getResult_priority_order initialGame).2.2.2.2
      (fun h => (and_RANK8_ne_zero.mpr h) (by decide))
      (by decide) (by decide) (by decide)

/-- C7: a move not in the current legal-move list is rejected: `makeMove`
returns `false` and the entire state (both bit-sets, side to move, ply,
hash, and the undo history) is unchanged. -/
theorem makeMove_illegal_rejected (g : Game) (m : Move)
    (h : m ∉ generateLegalMoves g) : makeMove g m = (false, g) := by
  rw [makeMove, if_neg]
  simp [isLegalMove, h]

/-- Witness for C7: a nonsense move at the initial position. -/
theorem makeMove_illegal_rejected_witness :
    Move.mk' 0 1 0 ∉ generateLegalMoves initialGame ∧
      makeMove initialGame (Move.mk' 0 1 0) = (false, initialGame) :=
  ⟨by decide, makeMove_illegal_rejected initialGame (Move.mk' 0 1 0) (by decide)⟩

/-- C9: `getQueenSquare` returns the sentinel 64 exactly when the queen set
is empty, and otherwise the index of its least significant set bit, always
in range. -/
theorem getQueenSquare_spec (g : Game) (hq : g.queen < 2 ^ 64) :
    (g.queen = 0 → getQueenSquare g = 64) ∧
    (g.queen ≠ 0 →
      ∃ s : Nat, getQueenSquare g = s ∧ s < 64 ∧ g.queen.testBit s = true ∧
        ∀ j, j < s → g.queen.testBit j = false) := by
  constructor
  · intro h
    rw [getQueenSquare, if_pos h]
  · intro h
    refine ⟨ctz g.queen, ?_, lt_64_of_testBit hq (testBit_ctz h),
      testBit_ctz h, fun j hj => testBit_lt_ctz hj⟩
    rw [getQueenSquare, if_neg h, lsb, if_neg h]

/-- Witness for C9 at the initial position (queen on d8, square 59). -/
theorem getQueenSquare_spec_witness :
    initialGame.queen < 2 ^ 64 ∧
      ((initialGame.queen = 0 → getQueenSquare initialGame = 64) ∧
       (initialGame.queen ≠ 0 →
        ∃ s : Nat, getQueenSquare initialGame = s ∧ s < 64 ∧
          initialGame.queen.testBit s = true ∧
          ∀ j, j < s → initialGame.queen.testBit j = false)) :=
  ⟨by decide, getQueenSquare_spec initialGame (by decide)⟩

/-- The code points of files 'a'..'h'. -/
def fileCharOK (c : Char) : Prop := 97 ≤ c.toNat ∧ c.toNat ≤ 104

/-- The code points of ranks '1'..'8'. -/
def rankCharOK (c : Char) : Prop := 49 ≤ c.toNat ∧ c.toNat ≤ 56

/-- C10: `algebraicToMove` returns the null move (whose `isValid` is false)
whenever the string is shorter than four characters or any of the first
four characters denotes a file outside a-h or a rank outside 1-8; the
translation is total, never reading past the guarded prefix. -/
theorem algebraicToMove_invalid (g : Game) (s : List Char)
    (h : s.length < 4 ∨ ¬fileCharOK (s.getD 0 'a') ∨ ¬rankCharOK (s.getD 1 '1') ∨
      ¬fileCharOK (s.getD 2 'a') ∨ ¬rankCharOK (s.getD 3 '1')) :
    algebraicToMove g s = Move.null ∧ Move.null.isValid = false := by
  refine ⟨?_, rfl⟩
  match s with
  | [] => rfl
  | [c0] => rfl
  | [c0, c1] => rfl
  | [c0, c1, c2] => rfl
  | c0 :: c1 :: c2 :: c3 :: rest =>
    rcases h with h | h | h | h | h
    · simp at h
      omega
    all_goals
      simp only [List.getD_cons_zero, List.getD_cons_succ] at h
      simp only [fileCharOK, rankCharOK, not_and, not_le] at h
      rw [algebraicToMove, if_pos]
      omega

/-- C1: on any reachable state, making a legal move and then unmaking it
restores the pawn bit-set, the queen bit-set, the side to move, the ply
counter, and the fingerprint to bit-exact equality (and the unmake
succeeds). -/
theorem make_unmake_roundtrip (g : Game) (m : Move) (hr : ReachableWF g)
    (hm : m ∈ generateLegalMoves g) :
    (unmakeMove (makeMove g m).2).1 = true ∧
    (unmakeMove (makeMove g m).2).2.pawns = g.pawns ∧
    (unmakeMove (makeMove g m).2).2.queen = g.queen ∧
    (unmakeMove (makeMove g m).2).2.sideToMove = g.sideToMove ∧
    (unmakeMove (makeMove g m).2).2.ply = g.ply ∧
    (unmakeMove (makeMove g m).2).2.hash = g.hash := by
  have hleg : isLegalMove g m = true := decide_eq_true hm
  rw [makeMove, if_pos hleg]
  rw [unmake_makeBody hr.good.wf_hash.1 hm]
  exact ⟨rfl, rfl, rfl, rfl, rfl, rfl⟩

/-- Witness for C1: the double push a2a4 at the initial position. -/
theorem make_unmake_roundtrip_witness :
    Move.mk' 8 24 1 ∈ generateLegalMoves initialGame ∧
    ((unmakeMove (makeMove initialGame (Move.mk' 8 24 1)).2).1 = true ∧
     (unmakeMove (makeMove initialGame (Move.mk' 8 24 1)).2).2.pawns =
       initialGame.pawns ∧
     (unmakeMove (makeMove initialGame (Move.mk' 8 24 1)).2).2.queen =
       initialGame.queen ∧
     (unmakeMove (makeMove initialGame (Move.mk' 8 24 1)).2).2.sideToMove =
       initialGame.sideToMove ∧
     (unmakeMove (makeMove initialGame (Move.mk' 8 24 1)).2).2.ply =
       initialGame.ply ∧
     (unmakeMove (makeMove initialGame (Move.mk' 8 24 1)).2).2.hash =
       initialGame.hash) :=
  ⟨by decide, make_unmake_roundtrip initialGame (Move.mk' 8 24 1)
    ReachableWF.init (by decide)⟩

/-- C2 (amended): on every state reachable through `setPosition` calls with
disjoint bit-sets holding at most one queen bit, `reset` on an empty
history, and arbitrary `makeMove`/`unmakeMove` calls, the incrementally
maintained hash equals the from-scratch XOR of `pawnKeys` over the pawn
bits, `queenKeys` over the queen bits, and `sideKey` exactly when BLACK is
to move. -/
theorem hash_equals_recomputation (g : Game) (hr : ReachableWF g) :
    g.hash = zobristPiece pawnKeys g.pawns ^^^ zobristPiece queenKeys g.queen ^^^
      (if g.sideToMove = Side.BLACK then sideKey else 0) := by
  have hh := hr.good.wf_hash.2
  rw [HashInv] at hh
  rw [hh, zobrist_split]

/-- Witness for C2 after one capture-free move from the initial position. -/
theorem hash_equals_recomputation_witness :
    (makeMove initialGame (Move.mk' 8 16 0)).2.hash =
      zobristPiece pawnKeys (makeMove initialGame (Move.mk' 8 16 0)).2.pawns ^^^
      zobristPiece queenKeys (makeMove initialGame (Move.mk' 8 16 0)).2.queen ^^^
      (if (makeMove initialGame (Move.mk' 8 16 0)).2.sideToMove = Side.BLACK
        then sideKey else 0) :=
  hash_equals_recomputation _ (ReachableWF.mk initialGame _ ReachableWF.init)

/-- The position used to refute C2 as stated: `setPosition` with a queen
"bit-set" holding two bits (e5 and a1), pawn on d4, WHITE to move. -/
def c2Position : Game :=
  setPosition (squareBB 27) (squareBB 36 ||| squareBB 0) Side.WHITE

/-- Counterexample to C2 as stated: after the unrestricted `setPosition`
call of `c2Position`, the pawn capture d4xe5 is legal and succeeds, but the
incrementally maintained hash of the resulting state no longer equals the
from-scratch recomputation (the capture zeroes the whole queen set while
un-xoring only the captured square's key). -/
theorem hash_counterexample_two_bit_queen :
    (makeMove c2Position (Move.mk' 27 36 4)).1 = true ∧
    (makeMove c2Position (Move.mk' 27 36 4)).2.hash ≠
      zobristPiece pawnKeys (makeMove c2Position (Move.mk' 27 36 4)).2.pawns ^^^
      zobristPiece queenKeys (makeMove c2Position (Move.mk' 27 36 4)).2.queen ^^^
      (if (makeMove c2Position (Move.mk' 27 36 4)).2.sideToMove = Side.BLACK
        then sideKey else 0) := by
  constructor
  · decide
  · decide

/-- C8: `reset` leaves the undo history untouched; after a reset on a state
with recorded moves, `unmakeMove` still succeeds, pops the pre-reset record,
and applies it on top of the freshly reset canonical position (flipping the
side to BLACK, decrementing the ply to -1, and editing the reset board). -/
theorem reset_keeps_history (g : Game) :
    (reset g).moveHistory = g.moveHistory ∧
    (∀ u rest, g.moveHistory = u :: rest →
      (unmakeMove (reset g)).1 = true ∧
      (unmakeMove (reset g)).2.moveHistory = rest ∧
      (unmakeMove (reset g)).2.hash = u.hash ∧
      (unmakeMove (reset g)).2.ply = -1 ∧
      (unmakeMove (reset g)).2.sideToMove = Side.BLACK ∧
      (unmakeMove (reset g)).2.queen =
        squareBB 59 &&& NOT64 (squareBB u.move.toSq) ||| squareBB u.move.fromSq ∧
      (unmakeMove (reset g)).2.pawns =
        (if u.move.isCapture then RANK_2 ||| u.capturedPiece else RANK_2)) := by
  refine ⟨rfl, ?_⟩
  intro u rest hh
  obtain ⟨gp, gq, gs, ghash, gply, ghist⟩ := g
  simp only at hh
  subst hh
  rw [reset]
  rw [unmakeMove]
  simp [Side.flip]

/-- Witness for C8: reset after one move from the initial position. -/
theorem reset_keeps_history_witness :
    ((makeMove initialGame (Move.mk' 8 16 0)).2.moveHistory =
      UndoInfo.mk (Move.mk' 8 16 0) 0 initialGame.hash :: []) ∧
    ((unmakeMove (reset (makeMove initialGame (Move.mk' 8 16 0)).2)).1 = true ∧
     (unmakeMove (reset (makeMove initialGame (Move.mk' 8 16 0)).2)).2.moveHistory = [] ∧
     (unmakeMove (reset (makeMove initialGame (Move.mk' 8 16 0)).2)).2.hash =
       (UndoInfo.mk (Move.mk' 8 16 0) 0 initialGame.hash).hash ∧
     (unmakeMove (reset (makeMove initialGame (Move.mk' 8 16 0)).2)).2.ply = -1 ∧
     (unmakeMove (reset (makeMove initialGame (Move.mk' 8 16 0)).2)).2.sideToMove =
       Side.BLACK ∧
     (unmakeMove (reset (makeMove initialGame (Move.mk' 8 16 0)).2)).2.queen =
       squareBB 59 &&&
         NOT64 (squareBB (UndoInfo.mk (Move.mk' 8 16 0) 0 initialGame.hash).move.toSq) |||
         squareBB (UndoInfo.mk (Move.mk' 8 16 0) 0 initialGame.hash).move.fromSq ∧
     (unmakeMove (reset (makeMove initialGame (Move.mk' 8 16 0)).2)).2.pawns =
       (if (UndoInfo.mk (Move.mk' 8 16 0) 0 initialGame.hash).move.isCapture
        then RANK_2 ||| (UndoInfo.mk (Move.mk' 8 16 0) 0 initialGame.hash).capturedPiece
        else RANK_2)) :=
  ⟨by decide, (reset_keeps_history (makeMove initialGame (Move.mk' 8 16 0)).2).2
    (UndoInfo.mk (Move.mk' 8 16 0) 0 initialGame.hash) [] (by decide)⟩

/-- The table state used to exhibit C4's failing input: the near-mate score
99995 (a forced white win with terminal ply 5, seen from ply 2) is re-biased
by the ply and stored, exactly as `alphaBeta` does before `storeTT`. -/
def c4Table : Nat → TTEntry :=
  storeTT (fun _ => emptyTTEntry) 1 12345 (storeScoreAdjust 99995 2) 5
    TTFlag.TT_EXACT (Move.mk' 8 16 0)

/-- C4 failing input: the ply-independent re-bias is computed correctly
(99995 at ply 2 becomes 99997), but the `int16_t` entry field wraps it to
-31075, and the probe-side re-bias at the same ply returns -31075 instead
of the claimed 99995: the cached mate score is corrupted, a winning score
reads back as a large negative one. -/
theorem mate_score_corrupted_by_int16 :
    storeScoreAdjust 99995 2 = 99997 ∧
    (probeTT c4Table 1 12345).map (fun e => ttScoreAdjust e.score 2) =
      some (-31075) ∧
    ((-31075 : Int) ≠ 99995) := by
  refine ⟨by decide, by decide, by decide⟩

/-- C5 (amended): `probeTT` returns the slot entry iff the stored hash
matches the probed fingerprint exactly and the entry's generation tag is
the current tag or exactly one less as integers — so after the `uint8_t`
generation counter wraps from 255 to 0, entries tagged 255 (the immediately
preceding generation) are misses rather than hits. -/
theorem probeTT_hit_characterization (tbl : Nat → TTEntry) (a h : Nat)
    (e : TTEntry) :
    probeTT tbl a h = some e ↔
      e = tbl (h % TT_SIZE) ∧ (tbl (h % TT_SIZE)).hash = h ∧
        ((tbl (h % TT_SIZE)).age = a ∨ (tbl (h % TT_SIZE)).age + 1 = a) := by
  rw [probeTT]
  split
  · rename_i hc
    simp only [Option.some.injEq]
    constructor
    · rintro rfl
      refine ⟨rfl, hc.1, ?_⟩
      rcases hc.2 with h2 | h2
      · exact Or.inl h2
      · right
        omega
    · rintro ⟨rfl, _, _⟩
      rfl
  · rename_i hc
    constructor
    · intro he
      exact absurd he (by simp)
    · rintro ⟨rfl, hh, hage⟩
      refine absurd ⟨hh, ?_⟩ hc
      rcases hage with h2 | h2
      · exact Or.inl h2
      · right
        omega

/-- The table used to refute C5 as stated: a single entry tagged with
generation 255 while the current generation counter has wrapped to 0. -/
def c5Table : Nat → TTEntry :=
  fun _ => ⟨777, 0, 0, TTFlag.TT_EXACT, Move.null, 255⟩

/-- Counterexample to C5 as stated: the slot entry's fingerprint matches
and its tag 255 is the immediately preceding generation once the `uint8_t`
counter has wrapped to 0 (255 = (0 + 256 - 1) mod 256), yet the probe is a
miss, because the comparison `entry.age == ttAge - 1` is computed after
integer promotion and tests against -1. -/
theorem probeTT_wraparound_counterexample :
    (c5Table (777 % TT_SIZE)).hash = 777 ∧
    (c5Table (777 % TT_SIZE)).age = (0 + 256 - 1) % 256 ∧
    probeTT c5Table 0 777 = none := by
  refine ⟨by decide, by decide, by decide⟩

theorem map_snd_scoredList (moves : List Move) (side : Side) (ttMove : Move)
    (ply : Nat) (killers : Nat → Move × Move) (histTable : Nat → Nat → Int) :
    (scoredList moves side ttMove ply killers histTable).map Prod.snd = moves := by
  rw [scoredList, List.map_map]
  have hcomp : (Prod.snd ∘ fun m : Move =>
      (scoreMove m side ttMove ply killers histTable, m)) = id := rfl
  rw [hcomp, List.map_id]

theorem mem_scoredList_fst {moves : List Move} {side : Side} {ttMove : Move}
    {ply : Nat} {killers : Nat → Move × Move} {histTable : Nat → Nat → Int}
    {pr : Int × Move}
    (h : pr ∈ scoredList moves side ttMove ply killers histTable) :
    pr.1 = scoreMove pr.2 side ttMove ply killers histTable := by
  rw [scoredList, List.mem_map] at h
  obtain ⟨m, _, rfl⟩ := h
  rfl

/-- C6 (amended): `orderMoves` writes back some permutation of the input
move list arranged in non-increasing `scoreMove` order (highest-ranked
first); such an output always exists, but because the code uses `std::sort`
the relative order of equal-score moves is unspecified, not stable. -/
theorem orderMoves_sorted_permutation (moves : List Move) (side : Side)
    (ttMove : Move) (ply : Nat) (killers : Nat → Move × Move)
    (histTable : Nat → Nat → Int) :
    (∃ out, orderMovesRel moves side ttMove ply killers histTable out) ∧
    (∀ out, orderMovesRel moves side ttMove ply killers histTable out →
      out.Perm moves ∧
      out.Pairwise (fun a b =>
        scoreMove b side ttMove ply killers histTable ≤
        scoreMove a side ttMove ply killers histTable)) := by
  constructor
  · refine ⟨(((scoredList moves side ttMove ply killers histTable).mergeSort
      (fun a b => decide (b.1 ≤ a.1))).map Prod.snd),
      (scoredList moves side ttMove ply killers histTable).mergeSort
        (fun a b => decide (b.1 ≤ a.1)), ⟨?_, ?_⟩, rfl⟩
    · exact List.mergeSort_perm _ _
    · have hs := @List.sorted_mergeSort (Int × Move)
        (fun a b => decide (b.1 ≤ a.1))
        (fun a b c hab hbc => by
          rw [decide_eq_true_eq] at *
          omega)
        (fun a b => by
          rcases le_total b.1 a.1 with h | h <;> simp [h])
        (scoredList moves side ttMove ply killers histTable)
      exact hs.imp fun {a b} hab => by
        rw [decide_eq_true_eq] at hab
        exact hab
  · rintro out ⟨sorted, ⟨hperm, hpw⟩, rfl⟩
    constructor
    · have := hperm.map Prod.snd
      rwa [map_snd_scoredList] at this
    · rw [List.pairwise_map]
      refine hpw.imp_of_mem ?_
      intro a b ha hb hab
      have ha' := mem_scoredList_fst (hperm.mem_iff.mp ha)
      have hb' := mem_scoredList_fst (hperm.mem_iff.mp hb)
      rw [ha', hb'] at hab
      exact hab

/-- Witness for C6 (amended) at the initial position's first two moves. -/
theorem orderMoves_sorted_permutation_witness :
    orderMovesRel [Move.mk' 8 16 0, Move.mk' 9 17 0] Side.WHITE Move.null 0
      (fun _ => (Move.null, Move.null)) (fun _ _ => 0)
      [Move.mk' 8 16 0, Move.mk' 9 17 0] ∧
    ([Move.mk' 8 16 0, Move.mk' 9 17 0] : List Move).Perm
      [Move.mk' 8 16 0, Move.mk' 9 17 0] ∧
    ([Move.mk' 8 16 0, Move.mk' 9 17 0] : List Move).Pairwise (fun a b =>
      scoreMove b Side.WHITE Move.null 0
        (fun _ => (Move.null, Move.null)) (fun _ _ => 0) ≤
      scoreMove a Side.WHITE Move.null 0
        (fun _ => (Move.null, Move.null)) (fun _ _ => 0)) := by
  have hrel : orderMovesRel [Move.mk' 8 16 0, Move.mk' 9 17 0] Side.WHITE
      Move.null 0 (fun _ => (Move.null, Move.null)) (fun _ _ => 0)
      [Move.mk' 8 16 0, Move.mk' 9 17 0] := by
    refine ⟨scoredList [Move.mk' 8 16 0, Move.mk' 9 17 0] Side.WHITE Move.null 0
      (fun _ => (Move.null, Move.null)) (fun _ _ => 0), ⟨?_, ?_⟩, rfl⟩
    · exact List.Perm.refl _
    · decide
  exact ⟨hrel, ((orderMoves_sorted_permutation [Move.mk' 8 16 0, Move.mk' 9 17 0]
    Side.WHITE Move.null 0 (fun _ => (Move.null, Move.null)) (fun _ _ => 0)).2
    _ hrel).1, ((orderMoves_sorted_permutation [Move.mk' 8 16 0, Move.mk' 9 17 0]
    Side.WHITE Move.null 0 (fun _ => (Move.null, Move.null)) (fun _ _ => 0)).2
    _ hrel).2⟩

/-- The two equal-score moves a2a3 and b2b3 used to refute stability. -/
def c6Input : List Move := [Move.mk' 8 16 0, Move.mk' 9 17 0]

/-- Counterexample to C6 as stated: with empty killer and history tables and
no cached best move, a2a3 and b2b3 receive equal scores, and the reversed
output also satisfies the `std::sort` contract `orderMovesRel`; the code
does not guarantee that equal-score moves keep their original relative
order. -/
theorem orderMoves_tie_not_stable :
    scoreMove (Move.mk' 8 16 0) Side.WHITE Move.null 0
      (fun _ => (Move.null, Move.null)) (fun _ _ => 0) =
    scoreMove (Move.mk' 9 17 0) Side.WHITE Move.null 0
      (fun _ => (Move.null, Move.null)) (fun _ _ => 0) ∧
    orderMovesRel c6Input Side.WHITE Move.null 0
      (fun _ => (Move.null, Move.null)) (fun _ _ => 0)
      [Move.mk' 9 17 0, Move.mk' 8 16 0] ∧
    ([Move.mk' 9 17 0, Move.mk' 8 16 0] : List Move) ≠ c6Input := by
  refine ⟨by decide, ⟨scoredList [Move.mk' 9 17 0, Move.mk' 8 16 0] Side.WHITE
    Move.null 0 (fun _ => (Move.null, Move.null)) (fun _ _ => 0),
    ⟨by decide, by decide⟩, rfl⟩, by decide⟩

/-- Witness for C10: a two-character string yields the null move. -/
theorem algebraicToMove_invalid_witness :
    ((['a', '1'] : List Char).length < 4 ∨
      ¬fileCharOK ((['a', '1'] : List Char).getD 0 'a') ∨
      ¬rankCharOK ((['a', '1'] : List Char).getD 1 '1') ∨
      ¬fileCharOK ((['a', '1'] : List Char).getD 2 'a') ∨
      ¬rankCharOK ((['a', '1'] : List Char).getD 3 '1')) ∧
    algebraicToMove initialGame ['a', '1'] = Move.null ∧
      Move.null.isValid = false :=
  ⟨Or.inl (by decide), algebraicToMove_invalid initialGame ['a', '1']
    (Or.inl (by decide))⟩

end PigsAndFarmers
